import Mathlib

/-!
Verification of the tube route planner (src/tube_route_planner.py).

This file is a shallow embedding of the program:

* `ImportCSV.routes` embeds the CSV route loader (lines 67-86 of the source):
  it folds the parsed rows `(station1, station2, line)` into a
  dict-of-dict adjacency structure, writing both directions per row.
* `dist_km` embeds the equirectangular distance function (lines 89-102)
  over the reals (Python floats are idealized as real numbers).
* `graph_dijkstra` embeds the Dijkstra engine (lines 105-148).  The
  per-query state (`dist`, `prev`, the priority queue) is carried
  explicitly, the unbounded `while` loop is given a fuel parameter, and
  the numeric costs are idealized as rationals so that runs are
  executable; the geographic edge weight `dist_km(stations[node]...,
  stations[neighbor]...)` is abstracted as an explicit parameter
  `dkm : Nat -> Nat -> Rat`, which is how the station coordinate table
  enters the engine.  The module-scoped `routes` dictionary that the
  source reads during relaxation (line 125) is modeled as a separate
  parameter from the explicit argument `g`, so that the dependence of
  the engine on ambient state is visible.
* `directions` embeds the path-to-segments formatter (lines 151-177).

Dictionaries are modeled as association lists in insertion order;
Python's `None` becomes `Option.none`; the float `inf` initial distance
becomes `(⊤ : WithTop Rat)`.  Python's truthiness test
`if (prev_n := prev.get(node, None)) and ...` (line 130) is modeled
exactly: it succeeds only when the predecessor exists *and is nonzero*.
-/

namespace TubePlanner

/-- Adjacency of one station: neighbor station id to line id, in insertion
order (the inner dict of the Python adjacency structure). -/
abbrev Adj := List (Nat × Nat)

/-- The adjacency structure: station id to its `Adj` (the outer dict). -/
abbrev Graph := List (Nat × Adj)

/-- Association-list lookup, first match wins (Python dict lookup; Python
dicts have no duplicate keys, which is the `Nodup` side condition of the
well-formedness predicate `GoodGraph` below). -/
def alookup {α : Type} : List (Nat × α) → Nat → Option α
  | [], _ => none
  | (k, v) :: rest, k' => if k' = k then some v else alookup rest k'

/-- Key list of a dict (iteration order of `for v in g`). -/
def keys (g : Graph) : List Nat := g.map Prod.fst

/-- `routes[node]` as used in `for neighbor in routes[node]` (line 125);
for a missing key the loop body is never reached in well-formed runs. -/
def neighbors (g : Graph) (a : Nat) : Adj := (alookup g a).getD []

/-- `g[a][b]`: the line id of edge (a, b), `none` when absent. -/
def pyLine (g : Graph) (a b : Nat) : Option Nat :=
  (alookup g a).bind (fun adj => alookup adj b)

/-- Edge (a, b) is present in the adjacency structure. -/
def edgeIn (g : Graph) (a b : Nat) : Prop := (pyLine g a b).isSome = true

instance edgeInDecidable (g : Graph) (a b : Nat) : Decidable (edgeIn g a b) := by
  unfold edgeIn
  infer_instance

theorem edgeIn_iff (g : Graph) (a b : Nat) :
    edgeIn g a b ↔ ∃ l, pyLine g a b = some l := by
  unfold edgeIn
  cases pyLine g a b <;> simp

/-- Dict insert / overwrite: `d[k] = v` (updates in place, appends new
keys at the end, as Python dicts do). -/
def dictInsert {α : Type} : List (Nat × α) → Nat → α → List (Nat × α)
  | [], k, v => [(k, v)]
  | (k', v') :: rest, k, v =>
      if k' = k then (k, v) :: rest else (k', v') :: dictInsert rest k v

/-- `results[a][b] = l` on the dict-of-dict structure (line 84/85). -/
def routesInsert (m : Graph) (a b l : Nat) : Graph :=
  dictInsert m a (dictInsert ((alookup m a).getD []) b l)

/-- One CSV row `(station1, station2, line)` stores both directions
(lines 84-85 of the source). -/
def routesStep (m : Graph) (row : Nat × Nat × Nat) : Graph :=
  routesInsert (routesInsert m row.1 row.2.1 row.2.2) row.2.1 row.1 row.2.2

namespace ImportCSV

/-- `ImportCSV.routes`: fold the parsed CSV rows into the adjacency
structure (lines 79-86; CSV parsing itself is out of scope, rows arrive
as `(station1, station2, line)` triples in file order). -/
def routes (rows : List (Nat × Nat × Nat)) : Graph :=
  rows.foldl routesStep []

end ImportCSV

/-- Degrees to radians, `math.radians`. -/
noncomputable def radians (x : ℝ) : ℝ := x * (Real.pi / 180)

/-- `dist_km` (lines 89-102): equirectangular approximation of the
distance between two latitude/longitude pairs, in kilometers.  Python
floats are idealized as real numbers. -/
noncomputable def dist_km (lat1 lon1 lat2 lon2 : ℝ) : ℝ :=
  let x := radians (lon2 - lon1) * Real.cos (0.5 * (radians (lat2 + lat1)))
  let y := radians (lat2 - lat1)
  6371 * Real.sqrt (x * x + y * y)

/-- The transfer penalty factor, `penalty = 1.33` (line 118). -/
def penaltyQ : ℚ := 133 / 100

/-- The guard of line 130:
`if (prev_n := prev.get(node, None)) and g[prev_n][node] != g[node][neighbor]`.
Python truthiness makes the first conjunct fail both for `None` and for
the station id `0`. -/
def transferGuard (g : Graph) (pn : Option Nat) (node nb : Nat) : Bool :=
  match pn with
  | some p => decide (p ≠ 0) && decide (pyLine g p node ≠ pyLine g node nb)
  | none => false

/-- The new candidate distance computed in lines 129-133: the edge cost
`d` is multiplied by the penalty exactly when the guard holds. -/
def pyNewDist (g : Graph) (pn : Option Nat) (node nb : Nat) (length d : ℚ) : ℚ :=
  if transferGuard g pn node nb then length + d * penaltyQ else length + d

/-- The per-query search state: minimum distances (`inf` = `⊤`),
predecessors (`None` = `none`), and the pending priority-queue entries. -/
structure DState where
  dist : Nat → WithTop ℚ
  prev : Nat → Option Nat
  pq : List (ℚ × Nat)

/-- Lexicographic comparison of queue entries, as Python compares the
`(cost, station)` tuples in the heap. -/
def entLt (x y : ℚ × Nat) : Bool :=
  decide (x.1 < y.1) || (decide (x.1 = y.1) && decide (x.2 < y.2))

/-- Minimum entry of a nonempty collection, accumulator form. -/
def findMin : (ℚ × Nat) → List (ℚ × Nat) → (ℚ × Nat)
  | e, [] => e
  | e, x :: xs => findMin (if entLt x e then x else e) xs

/-- Remove the first occurrence of an entry from the queue. -/
def eraseFirst : List (ℚ × Nat) → (ℚ × Nat) → List (ℚ × Nat)
  | [], _ => []
  | x :: xs, e => if x = e then xs else x :: eraseFirst xs e

/-- `pq.get()` on a nonempty queue: remove and return the least
`(cost, station)` tuple. -/
def popMin (l : List (ℚ × Nat)) : Option ((ℚ × Nat) × List (ℚ × Nat)) :=
  match l with
  | [] => none
  | x :: xs =>
      let m := findMin x xs
      some (m, eraseFirst (x :: xs) m)

/-- Relaxation of one neighbor (lines 126-139): compute the candidate
distance from the dequeued entry's cost and update `dist`, `prev` and the
queue when it strictly improves. -/
def relaxStep (g : Graph) (dkm : Nat → Nat → ℚ) (length : ℚ) (node : Nat)
    (s : DState) (p : Nat × Nat) : DState :=
  let nd := pyNewDist g (s.prev node) node p.1 length (dkm node p.1)
  if (nd : WithTop ℚ) < s.dist p.1 then
    ⟨Function.update s.dist p.1 (nd : WithTop ℚ),
     Function.update s.prev p.1 (some node),
     s.pq ++ [(nd, p.1)]⟩
  else s

/-- The `while not pq.empty()` loop (lines 123-139), fuel-indexed.  Note
that the neighbor iteration (line 125) reads the ambient module-scoped
`routes`, while the line lookups of the penalty guard read the explicit
argument `g`. -/
def dloop (routes : Graph) (dkm : Nat → Nat → ℚ) (g : Graph) :
    Nat → DState → DState
  | 0, s => s
  | fuel + 1, s =>
      match popMin s.pq with
      | none => s
      | some (e, rest) =>
          dloop routes dkm g fuel
            ((neighbors routes e.2).foldl (relaxStep g dkm e.1 e.2)
              ⟨s.dist, s.prev, rest⟩)

/-- Initial state (lines 115-122): every distance infinite except the
source at 0, no predecessors, the queue holding `(0, start)`. -/
def initState (start : Nat) : DState :=
  ⟨fun v => if v = start then ((0 : ℚ) : WithTop ℚ) else ⊤,
   fun _ => none,
   [((0 : ℚ), start)]⟩

/-- The reconstruction loop (lines 142-144), with the Python list kept
reversed (our head is Python's `path[-1]`); fuel-indexed.  The loop
appends `prev[path[-1]]` while `path[-1]` is a key of `prev` (the keys of
`prev` are the keys of `g`); appending `None` ends it. -/
def reconLoop (ks : List Nat) (prev : Nat → Option Nat) :
    Nat → List (Option Nat) → List (Option Nat)
  | 0, p => p
  | fuel + 1, p =>
      match p with
      | some v :: rest =>
          if v ∈ ks then reconLoop ks prev fuel (prev v :: some v :: rest)
          else some v :: rest
      | other => other

/-- Path reconstruction (lines 141-148): run the loop from `[end]`, drop
the final `None` (`path.pop()`), and reverse.  With the list kept
reversed, popping Python's last element is `tail` and the final
`list(reversed(path))` is the identity on our representation. -/
def pyReconstruct (ks : List Nat) (prev : Nat → Option Nat) (endv : Nat)
    (fuel : Nat) : List (Option Nat) :=
  (reconLoop ks prev fuel [some endv]).tail

/-- `graph_dijkstra` (lines 105-148).  `routes` and `dkm` stand for the
module-scoped `routes` and `stations`-plus-`dist_km` that the function
reads from ambient scope; `g`, `start`, `endv` are its explicit
arguments.  The reconstruction loop always terminates on states produced
by the main loop after at most `(keys g).length + 1` steps, so it is run
with fuel `(keys g).length + 2`. -/
def graph_dijkstra (routes : Graph) (dkm : Nat → Nat → ℚ) (g : Graph)
    (start endv : Nat) (fuel : Nat) :
    (Nat → WithTop ℚ) × List (Option Nat) :=
  let s := dloop routes dkm g fuel (initState start)
  (s.dist, pyReconstruct (keys g) s.prev endv ((keys g).length + 2))

/-- Append to a `defaultdict(list)` entry: `directions[transfer].append(v)`
(creates the key at the end on first use, Python insertion order). -/
def ddAppend (m : List ((Nat × Nat) × List Nat)) (k : Nat × Nat) (v : Nat) :
    List ((Nat × Nat) × List Nat) :=
  match m with
  | [] => [(k, [v])]
  | (k', vs) :: rest =>
      if k' = k then (k', vs ++ [v]) :: rest else (k', vs) :: ddAppend rest k v

/-- `routes[a][b]` as read by `directions`; in the source a missing edge
raises `KeyError`, which never happens on the paths the claims quantify
over, so the total model defaults to 0 there. -/
def pyLineD (routes : Graph) (a b : Nat) : Nat := (pyLine routes a b).getD 0

/-- The loop of `directions` (lines 168-176) over the remaining path,
carrying the transfer number, current line id and the accumulated
segment dict. -/
def dirLoop (routes : Graph) :
    List Nat → Nat → Nat → List ((Nat × Nat) × List Nat) →
      List ((Nat × Nat) × List Nat)
  | cur :: next :: rest, tn, lineId, acc =>
      let nl := pyLineD routes cur next
      if nl = lineId then
        dirLoop routes (next :: rest) tn lineId (ddAppend acc (tn, lineId) next)
      else
        dirLoop routes (next :: rest) (tn + 1) nl (ddAppend acc (tn + 1, nl) next)
  | _, _, _, acc => acc

/-- `directions` (lines 151-177): group the path into per-line segments
keyed by `(transfer_number, line_id)`.  A path of fewer than two stops
raises `IndexError` at line 166 in the source; the total model returns
the empty dict there. -/
def directions (routes : Graph) (path : List Nat) :
    List ((Nat × Nat) × List Nat) :=
  match path with
  | p0 :: p1 :: rest =>
      dirLoop routes (p0 :: p1 :: rest) 0 (pyLineD routes p0 p1) []
  | _ => []

/-! ### Concrete fixtures used by the claims -/

/-- Unit edge weights (any concrete realization of `dist_km` on the
station table; the engine's control flow depends only on comparisons). -/
def exOne : Nat → Nat → ℚ := fun _ _ => 1

/-- Stations 1,2,3 in a line; edge 1-2 on line 1, edge 2-3 on line 2
(the spec's concrete A,B,C transfer scenario, with ids). -/
def exTransfer : Graph := [(1, [(2, 1)]), (2, [(1, 1), (3, 2)]), (3, [(2, 2)])]

/-- Stations 1,2,3 in a line, both edges on line 1. -/
def exSingle : Graph := [(1, [(2, 1)]), (2, [(1, 1), (3, 1)]), (3, [(2, 1)])]

/-- Stations 1,2 joined by an edge; station 3 isolated (no edges). -/
def exIsolated : Graph := [(1, [(2, 5)]), (2, [(1, 5)]), (3, [])]

/-- A graph containing station id 0: edges 0-1 on line 1 and 1-2 on
line 2. -/
def exZero : Graph := [(0, [(1, 1)]), (1, [(0, 1), (2, 2)]), (2, [(1, 2)])]

/-- Two stations joined by one edge on line 7. -/
def exPair : Graph := [(1, [(2, 7)]), (2, [(1, 7)])]

/-- The same two stations with empty adjacency lists. -/
def exNoEdges : Graph := [(1, []), (2, [])]

/-! ### Claim C1 -/

/-- Claim C1 (code bug, witnessing run): on a graph where station 3 is
unreachable from station 1 (its cost stays infinite), `graph_dijkstra`
returns the one-station path `[3]` — the target alone — instead of any
explicit "no route" outcome; its return type has no such outcome at all.
This is the behavior the spec's required correction (§4.3, §9) forbids. -/
theorem C1_unreachable_returns_target_only :
    (graph_dijkstra exIsolated exOne exIsolated 1 3 10).1 3 = ⊤ ∧
    (graph_dijkstra exIsolated exOne exIsolated 1 3 10).2 = [some 3] := by
  with_unfolding_all decide

/-! ### Claim C2 -/

/-- Claim C2, counterexample: in the run on `exZero` from source 0, node 1
is dequeued with recorded predecessor station 0 (so it *does* have a
recorded predecessor and is not the source), the line of edge (0,1)
differs from the line of edge (1,2), yet the relaxation that produced
`dist[2]` added the edge cost unmodified: `dist[2] = dist[1] + 1 = 2`,
not `dist[1] + 1 * 1.33`.  Python's truthiness test on line 130 treats
the predecessor id 0 as absent. -/
theorem C2_counterexample :
    (dloop exZero exOne exZero 10 (initState 0)).prev 1 = some 0 ∧
    (dloop exZero exOne exZero 10 (initState 0)).prev 2 = some 1 ∧
    pyLine exZero 0 1 ≠ pyLine exZero 1 2 ∧
    (dloop exZero exOne exZero 10 (initState 0)).dist 1 = ((1 : ℚ) : WithTop ℚ) ∧
    (dloop exZero exOne exZero 10 (initState 0)).dist 2 = ((2 : ℚ) : WithTop ℚ) ∧
    pyNewDist exZero (some 0) 1 2 1 1 = 2 ∧
    (2 : ℚ) ≠ 1 + 1 * penaltyQ := by
  with_unfolding_all decide

/-- Claim C2 (amended): in the relaxation of an edge from the dequeued
node to a neighbor, the edge cost is multiplied by 1.33 if and only if
the dequeued node has a recorded predecessor P that is *a nonzero station
id* and the line id of edge (P, node) differs from the line id of edge
(node, neighbor); otherwise the unmodified edge cost is added.  (The
original claim omits the nonzero condition, which Python's truthiness
test imposes.) -/
theorem C2_amended_penalty_rule (g : Graph) (pn : Option Nat) (node nb : Nat)
    (length d : ℚ) :
    (pn = none → pyNewDist g pn node nb length d = length + d) ∧
    (∀ p, pn = some p → p ≠ 0 → pyLine g p node ≠ pyLine g node nb →
      pyNewDist g pn node nb length d = length + d * penaltyQ) ∧
    (∀ p, pn = some p → (p = 0 ∨ pyLine g p node = pyLine g node nb) →
      pyNewDist g pn node nb length d = length + d) := by
  refine ⟨fun h => ?_, fun p hp hp0 hl => ?_, fun p hp hcase => ?_⟩
  · subst h; simp [pyNewDist, transferGuard]
  · subst hp
    simp [pyNewDist, transferGuard, hp0, hl]
  · subst hp
    rcases hcase with h0 | hl
    · subst h0; simp [pyNewDist, transferGuard]
    · simp [pyNewDist, transferGuard, hl]

/-- Witness for C2's amended rule: a concrete penalized relaxation.  In
`exTransfer`, node 2 with recorded predecessor 1 relaxing neighbor 3
crosses from line 1 to line 2, so the penalty applies. -/
theorem C2_amended_penalty_rule_witness :
    pyNewDist exTransfer (some 1) 2 3 1 1 = 1 + 1 * penaltyQ :=
  (C2_amended_penalty_rule exTransfer (some 1) 2 3 1 1).2.1 1 rfl
    (by decide) (by decide)

/-! ### Claim C4 -/

/-- Claim C4 (code bug, witnessing run): `graph_dijkstra`'s result is
*not* a function of its explicit arguments and the station table alone.
Both runs below pass the identical explicit arguments
(`g = exPair`, start 1, end 2) and the identical edge-cost table, and
differ only in the ambient module-scoped `routes` structure that line 125
of the source reads during relaxation — yet both the distances and the
returned path differ. -/
theorem C4_ambient_routes_changes_result :
    (graph_dijkstra exPair exOne exPair 1 2 10).1 2 ≠
      (graph_dijkstra exNoEdges exOne exPair 1 2 10).1 2 ∧
    (graph_dijkstra exPair exOne exPair 1 2 10).2 ≠
      (graph_dijkstra exNoEdges exOne exPair 1 2 10).2 := by
  with_unfolding_all decide

/-! ### Claim C8 -/

/-- Claim C8: for all (finite) inputs, `dist_km` equals the
equirectangular form — longitude delta in radians scaled by the cosine of
the mean latitude, combined with the latitude delta in radians by
Pythagoras, times the 6371 km Earth radius — it is non-negative, and the
radicand handed to the square root is non-negative (so the computation
has no error case). -/
theorem dist_km_equirectangular_nonneg (lat1 lon1 lat2 lon2 : ℝ) :
    dist_km lat1 lon1 lat2 lon2 =
      6371 * Real.sqrt
        ((radians (lon2 - lon1) * Real.cos (0.5 * radians (lat2 + lat1))) ^ 2 +
          radians (lat2 - lat1) ^ 2) ∧
    0 ≤ dist_km lat1 lon1 lat2 lon2 ∧
    0 ≤ (radians (lon2 - lon1) * Real.cos (0.5 * radians (lat2 + lat1))) ^ 2 +
          radians (lat2 - lat1) ^ 2 := by
  refine ⟨?_, ?_, by positivity⟩
  · simp only [dist_km]
    rw [pow_two, pow_two]
  · simp only [dist_km]
    positivity

/-! ### Claim C9 -/

/-- Claim C9: the penalty guard of line 130 treats a recorded predecessor
of station id 0 exactly like "no predecessor": whenever the dequeued
node's recorded predecessor is station 0, the guard is false and the
relaxation adds the unmodified edge cost — for every graph, node,
neighbor, dequeued cost and edge cost, in particular even when the two
edges' line ids differ. -/
theorem C9_zero_predecessor_never_penalized (g : Graph) (node nb : Nat)
    (length d : ℚ) :
    transferGuard g (some 0) node nb = false ∧
    pyNewDist g (some 0) node nb length d = length + d := by
  constructor
  · simp [transferGuard]
  · simp [pyNewDist, transferGuard]

/-! ### Claim C6: symmetry of the loaded adjacency structure -/

theorem alookup_dictInsert {α : Type} (m : List (Nat × α)) (k k' : Nat) (v : α) :
    alookup (dictInsert m k v) k' = if k' = k then some v else alookup m k' := by
  induction m with
  | nil => simp [dictInsert, alookup]
  | cons hd tl ih =>
      obtain ⟨k0, v0⟩ := hd
      by_cases h0 : k0 = k
      · subst h0
        simp only [dictInsert, if_pos rfl, alookup]
        split_ifs <;> simp_all [alookup]
      · simp only [dictInsert, if_neg h0, alookup, ih]
        split_ifs <;> simp_all

theorem pyLine_routesInsert (m : Graph) (a b l x y : Nat) :
    pyLine (routesInsert m a b l) x y =
      if x = a ∧ y = b then some l else pyLine m x y := by
  unfold pyLine routesInsert
  rw [alookup_dictInsert]
  by_cases hx : x = a
  · subst hx
    rw [if_pos rfl]
    simp only [Option.some_bind]
    rw [alookup_dictInsert]
    by_cases hy : y = b
    · simp [hy]
    · rw [if_neg hy, if_neg (by simp [hy])]
      cases h : alookup m x with
      | none => simp [alookup]
      | some adj => simp
  · rw [if_neg hx, if_neg (by simp [hx])]

theorem pyLine_routesStep (m : Graph) (r : Nat × Nat × Nat) (x y : Nat) :
    pyLine (routesStep m r) x y =
      if x = r.2.1 ∧ y = r.1 then some r.2.2
      else if x = r.1 ∧ y = r.2.1 then some r.2.2
      else pyLine m x y := by
  simp only [routesStep, pyLine_routesInsert]

theorem routes_symm_aux (rows : List (Nat × Nat × Nat)) :
    ∀ m : Graph, (∀ x y l, pyLine m x y = some l → pyLine m y x = some l) →
      ∀ x y l, pyLine (rows.foldl routesStep m) x y = some l →
        pyLine (rows.foldl routesStep m) y x = some l := by
  induction rows with
  | nil => intro m hm; simpa using hm
  | cons r rest ih =>
      intro m hm
      simp only [List.foldl_cons]
      refine ih (routesStep m r) ?_
      intro x y l h
      obtain ⟨s1, s2, l0⟩ := r
      rw [pyLine_routesStep] at h ⊢
      simp only at h ⊢
      by_cases hA : x = s2 ∧ y = s1
      · rw [if_pos hA] at h
        by_cases hc1 : y = s2 ∧ x = s1
        · rw [if_pos hc1]; exact h
        · rw [if_neg hc1, if_pos ⟨hA.2, hA.1⟩]; exact h
      · rw [if_neg hA] at h
        by_cases hB : x = s1 ∧ y = s2
        · rw [if_pos hB] at h
          rw [if_pos ⟨hB.2, hB.1⟩]; exact h
        · rw [if_neg hB] at h
          rw [if_neg (fun hc => hB ⟨hc.2, hc.1⟩), if_neg (fun hc => hA ⟨hc.2, hc.1⟩)]
          exact hm x y l h

/-- Claim C6: the adjacency structure built by the route loader is
symmetric — whenever `(a, b)` is stored with line id `l`, the reverse
entry `(b, a)` is stored with the same line id, for every list of loaded
rows (each row writes both directions, and later rows overwrite both
directions of the same unordered pair together). -/
theorem C6_routes_symmetric (rows : List (Nat × Nat × Nat)) (a b l : Nat)
    (h : pyLine (ImportCSV.routes rows) a b = some l) :
    pyLine (ImportCSV.routes rows) b a = some l :=
  routes_symm_aux rows [] (by intro x y l0 hx; simp [pyLine, alookup] at hx)
    a b l h

/-- Witness for C6 at the sample CSV row `11,163,1` of the source's
doc string. -/
theorem C6_routes_symmetric_witness :
    pyLine (ImportCSV.routes [(11, 163, 1)]) 163 11 = some 1 :=
  C6_routes_symmetric [(11, 163, 1)] 11 163 1 (by decide)

/-! ### Claims C5 and C10: the directions formatter -/

/-- The segment grouping exactly as the spec's section 4.4 words it,
used as the comparison point for `directions`: carry the open segment
explicitly, append the destination stop while the line id matches, and
on a change of line flush the segment, increment the transfer index and
open a new segment with that destination stop. -/
def specLoop (routes : Graph) :
    Nat → List Nat → Nat → Nat → List Nat → List ((Nat × Nat) × List Nat)
  | _, [], tn, lineId, seg => [((tn, lineId), seg)]
  | cur, next :: rest, tn, lineId, seg =>
      if pyLineD routes cur next = lineId then
        specLoop routes next rest tn lineId (seg ++ [next])
      else
        ((tn, lineId), seg) ::
          specLoop routes next rest (tn + 1) (pyLineD routes cur next) [next]

/-- The spec's formatter (§4.4): initialize from the first edge with
transfer index 0, then run `specLoop`. -/
def specDirections (routes : Graph) (path : List Nat) :
    List ((Nat × Nat) × List Nat) :=
  match path with
  | p0 :: p1 :: rest => specLoop routes p1 rest 0 (pyLineD routes p0 p1) [p1]
  | _ => []

theorem ddAppend_of_not_mem (m : List ((Nat × Nat) × List Nat))
    (k : Nat × Nat) (v : Nat) (h : ∀ q ∈ m, q.1 ≠ k) :
    ddAppend m k v = m ++ [(k, [v])] := by
  induction m with
  | nil => rfl
  | cons hd tl ih =>
      obtain ⟨k', vs⟩ := hd
      have hne : k' ≠ k := h (k', vs) (by simp)
      simp only [ddAppend, if_neg hne, List.cons_append]
      rw [ih (fun q hq => h q (by simp [hq]))]

theorem ddAppend_last (init : List ((Nat × Nat) × List Nat)) (k : Nat × Nat)
    (seg : List Nat) (v : Nat) (h : ∀ q ∈ init, q.1 ≠ k) :
    ddAppend (init ++ [(k, seg)]) k v = init ++ [(k, seg ++ [v])] := by
  induction init with
  | nil => simp [ddAppend]
  | cons hd tl ih =>
      obtain ⟨k', vs⟩ := hd
      have hne : k' ≠ k := h (k', vs) (by simp)
      simp only [List.cons_append, ddAppend, if_neg hne, List.append_eq]
      rw [ih (fun q hq => h q (by simp [hq]))]

theorem dirLoop_eq_specLoop (routes : Graph) :
    ∀ (todo : List Nat) (cur tn lineId : Nat) (seg : List Nat)
      (init : List ((Nat × Nat) × List Nat)),
      (∀ q ∈ init, q.1.1 < tn) →
      dirLoop routes (cur :: todo) tn lineId (init ++ [((tn, lineId), seg)]) =
        init ++ specLoop routes cur todo tn lineId seg := by
  intro todo
  induction todo with
  | nil => intro cur tn lineId seg init hinit; rfl
  | cons next rest ih =>
      intro cur tn lineId seg init hinit
      simp only [dirLoop, specLoop]
      by_cases hl : pyLineD routes cur next = lineId
      · rw [if_pos hl, if_pos hl]
        rw [ddAppend_last init (tn, lineId) seg next (fun q hq hc => by
          have hlt := hinit q hq
          rw [hc] at hlt
          exact lt_irrefl _ hlt)]
        exact ih next tn lineId (seg ++ [next]) init hinit
      · rw [if_neg hl, if_neg hl]
        have hnotin : ∀ q ∈ init ++ [((tn, lineId), seg)],
            q.1 ≠ (tn + 1, pyLineD routes cur next) := by
          intro q hq hc
          rcases List.mem_append.1 hq with h1 | h2
          · have hlt := hinit q h1
            rw [hc] at hlt
            omega
          · simp only [List.mem_singleton] at h2
            rw [h2] at hc
            simp only [Prod.mk.injEq] at hc
            omega
        rw [ddAppend_of_not_mem _ _ _ hnotin]
        rw [ih next (tn + 1) (pyLineD routes cur next) [next]
          (init ++ [((tn, lineId), seg)]) (by
            intro q hq
            rcases List.mem_append.1 hq with h1 | h2
            · exact Nat.lt_succ_of_lt (hinit q h1)
            · simp only [List.mem_singleton] at h2
              rw [h2]
              exact Nat.lt_succ_self tn)]
        simp

theorem directions_eq_specDirections (routes : Graph) (path : List Nat) :
    directions routes path = specDirections routes path := by
  match path with
  | [] => rfl
  | [p] => rfl
  | p0 :: p1 :: rest =>
      show dirLoop routes (p0 :: p1 :: rest) 0 (pyLineD routes p0 p1) [] = _
      simp only [dirLoop, if_pos rfl]
      have h0 : ddAppend [] (0, pyLineD routes p0 p1) p1 =
          [] ++ [((0, pyLineD routes p0 p1), [p1])] := rfl
      rw [h0, dirLoop_eq_specLoop routes rest p1 0 (pyLineD routes p0 p1) [p1] []
        (by simp)]
      rfl

theorem specLoop_indices (routes : Graph) :
    ∀ (todo : List Nat) (cur tn lineId : Nat) (seg : List Nat),
      (specLoop routes cur todo tn lineId seg).map (fun q => q.1.1) =
        List.range' tn (specLoop routes cur todo tn lineId seg).length := by
  intro todo
  induction todo with
  | nil => intro cur tn lineId seg; simp [specLoop, List.range']
  | cons next rest ih =>
      intro cur tn lineId seg
      simp only [specLoop]
      by_cases hl : pyLineD routes cur next = lineId
      · rw [if_pos hl]
        exact ih next tn lineId (seg ++ [next])
      · rw [if_neg hl]
        simp only [List.map_cons, List.length_cons]
        rw [ih next (tn + 1) (pyLineD routes cur next) [next]]
        rfl

theorem specLoop_join (routes : Graph) :
    ∀ (todo : List Nat) (cur tn lineId : Nat) (seg : List Nat),
      ((specLoop routes cur todo tn lineId seg).map Prod.snd).flatten =
        seg ++ todo := by
  intro todo
  induction todo with
  | nil => intro cur tn lineId seg; simp [specLoop]
  | cons next rest ih =>
      intro cur tn lineId seg
      simp only [specLoop]
      by_cases hl : pyLineD routes cur next = lineId
      · rw [if_pos hl, ih next tn lineId (seg ++ [next])]
        simp
      · rw [if_neg hl]
        simp only [List.map_cons, List.flatten_cons,
          ih next (tn + 1) (pyLineD routes cur next) [next]]
        simp

/-- Claim C5: `directions` realizes exactly the segment grouping the
spec describes — it agrees with the spec-worded `specDirections` on
every adjacency structure and every path, its output segments carry the
transfer indices 0, 1, 2, ... in ascending insertion order, and on the
spec's two concrete scenarios it produces `[(0,line1):[B], (1,line2):[C]]`
and the single segment `[(0,line1):[B,C]]` respectively. -/
theorem C5_directions_segments (routes : Graph) (path : List Nat) :
    directions routes path = specDirections routes path ∧
    (directions routes path).map (fun q => q.1.1) =
      List.range (directions routes path).length ∧
    directions exTransfer [1, 2, 3] = [((0, 1), [2]), ((1, 2), [3])] ∧
    directions exSingle [1, 2, 3] = [((0, 1), [2, 3])] := by
  refine ⟨directions_eq_specDirections routes path, ?_, by decide, by decide⟩
  match path with
  | [] => rfl
  | [p] => rfl
  | p0 :: p1 :: rest =>
      rw [directions_eq_specDirections]
      show (specLoop routes p1 rest 0 (pyLineD routes p0 p1) [p1]).map _ = _
      rw [specLoop_indices, List.range_eq_range']
      rfl

/-- Claim C10, counterexample: the path `[1, 2, 1]` has two stops' worth
of length and both its consecutive pairs are edges of `exPair`, yet the
source station 1 *does* appear in a segment's stop list (the
concatenation of the stop lists is the path's tail, which revisits the
source). -/
theorem C10_counterexample :
    2 ≤ ([1, 2, 1] : List Nat).length ∧
    List.Chain' (fun a b => edgeIn exPair a b) [1, 2, 1] ∧
    ([1, 2, 1] : List Nat).head? = some 1 ∧
    directions exPair [1, 2, 1] = [((0, 7), [2, 1])] ∧
    1 ∈ ((directions exPair [1, 2, 1]).map Prod.snd).flatten := by
  refine ⟨by decide, ?_, by decide, by decide, by decide⟩
  exact List.chain'_cons.2 ⟨rfl, List.chain'_cons.2 ⟨rfl, List.chain'_singleton 1⟩⟩

/-- Claim C10 (amended): for every adjacency structure and every path of
at least two stops whose consecutive pairs are edges, the concatenation
of the segment stop lists of `directions`, in output order, equals the
path with its first station removed; when additionally the path's
stations are pairwise distinct, the source station never appears in any
segment's stop list and every other path station appears exactly once.
(The original claim asserts the last two consequences for arbitrary
paths, where they fail as soon as the path revisits the source.) -/
theorem C10_concat_eq_tail (routes : Graph) (path : List Nat)
    (h1 : 2 ≤ path.length)
    (h2 : List.Chain' (fun a b => edgeIn routes a b) path) :
    ((directions routes path).map Prod.snd).flatten = path.tail ∧
    (path.Nodup →
      (∀ seg ∈ directions routes path, ∀ x ∈ seg.2, path.head? ≠ some x) ∧
      ∀ v ∈ path.tail,
        (((directions routes path).map Prod.snd).flatten).count v = 1) := by
  match path with
  | [] => exact absurd h1 (by simp)
  | [p] => exact absurd h1 (by simp)
  | p0 :: p1 :: rest =>
      have hjoin : ((directions routes (p0 :: p1 :: rest)).map Prod.snd).flatten =
          p1 :: rest := by
        rw [directions_eq_specDirections]
        show ((specLoop routes p1 rest 0 (pyLineD routes p0 p1) [p1]).map
          Prod.snd).flatten = _
        rw [specLoop_join]
        rfl
      refine ⟨hjoin, fun hnd => ⟨?_, ?_⟩⟩
      · intro seg hseg x hx hhead
        have hx0 : x = p0 := by
          have hsome : some p0 = some x := hhead
          exact (Option.some.inj hsome).symm
        have hmem : x ∈ ((directions routes (p0 :: p1 :: rest)).map
            Prod.snd).flatten := by
          rw [List.mem_flatten]
          exact ⟨seg.2, List.mem_map_of_mem Prod.snd hseg, hx⟩
        rw [hjoin] at hmem
        rw [hx0] at hmem
        exact (List.nodup_cons.1 hnd).1 hmem
      · intro v hv
        rw [hjoin]
        refine List.count_eq_one_of_mem (List.nodup_cons.1 hnd).2 ?_
        simpa using hv

/-- Witness for C10's amended statement on the concrete transfer
scenario: the stop lists concatenate to the path minus its source, and
the source never appears in a stop list. -/
theorem C10_concat_eq_tail_witness :
    ((directions exTransfer [1, 2, 3]).map Prod.snd).flatten = [2, 3] ∧
    ∀ seg ∈ directions exTransfer [1, 2, 3], ∀ x ∈ seg.2,
      ([1, 2, 3] : List Nat).head? ≠ some x := by
  have hch : List.Chain' (fun a b => edgeIn exTransfer a b) [1, 2, 3] :=
    List.chain'_cons.2 ⟨rfl, List.chain'_cons.2 ⟨rfl, List.chain'_singleton 3⟩⟩
  have h := C10_concat_eq_tail exTransfer [1, 2, 3] (by decide) hch
  exact ⟨h.1, (h.2 (by decide)).1⟩

/-! ### Well-formedness of the adjacency structure -/

/-- Well-formedness of a `Graph` as a Python dict-of-dicts: no duplicate
keys at either level, and every neighbor is itself a key (referential
closure, which the loader guarantees and which makes the engine's
`dist[neighbor]` lookups total). -/
def GoodGraph (g : Graph) : Prop :=
  (keys g).Nodup ∧
  (∀ p ∈ g, (p.2.map Prod.fst).Nodup) ∧
  ∀ p ∈ g, ∀ q ∈ p.2, q.1 ∈ keys g

theorem alookup_mem {α : Type} {m : List (Nat × α)} {k : Nat} {v : α}
    (h : alookup m k = some v) : (k, v) ∈ m := by
  induction m with
  | nil => simp [alookup] at h
  | cons hd tl ih =>
      obtain ⟨k0, v0⟩ := hd
      simp only [alookup] at h
      split_ifs at h with hk
      · injection h with hv
        subst hk; subst hv
        exact List.mem_cons_self _ _
      · exact List.mem_cons_of_mem _ (ih h)

theorem mem_alookup {α : Type} {m : List (Nat × α)} {k : Nat} {v : α}
    (hnd : (m.map Prod.fst).Nodup) (h : (k, v) ∈ m) : alookup m k = some v := by
  induction m with
  | nil => simp at h
  | cons hd tl ih =>
      obtain ⟨k0, v0⟩ := hd
      rcases List.mem_cons.1 h with h1 | h2
      · rw [Prod.mk.injEq] at h1
        obtain ⟨hk, hv⟩ := h1
        subst hk; subst hv
        simp [alookup]
      · have hk0 : k ≠ k0 := by
          intro hc
          subst hc
          have : k ∈ tl.map Prod.fst := List.mem_map_of_mem Prod.fst h2
          simp only [List.map_cons, List.nodup_cons] at hnd
          exact hnd.1 this
        simp only [alookup, if_neg hk0]
        exact ih (by simpa using (List.nodup_cons.1 (by simpa using hnd)).2) h2

theorem alookup_none_of_not_mem_keys {α : Type} {m : List (Nat × α)} {k : Nat}
    (h : k ∉ m.map Prod.fst) : alookup m k = none := by
  induction m with
  | nil => rfl
  | cons hd tl ih =>
      obtain ⟨k0, v0⟩ := hd
      simp only [List.map_cons, List.mem_cons, not_or] at h
      simp only [alookup, if_neg h.1]
      exact ih h.2

theorem mem_keys_of_alookup {g : Graph} {k : Nat} {adj : Adj}
    (h : alookup g k = some adj) : k ∈ keys g := by
  have := alookup_mem h
  exact List.mem_map_of_mem Prod.fst this

theorem not_mem_of_alookup_none {α : Type} {m : List (Nat × α)} {k : Nat}
    (h : alookup m k = none) : k ∉ m.map Prod.fst := by
  induction m with
  | nil => simp
  | cons hd tl ih =>
      obtain ⟨k0, v0⟩ := hd
      simp only [alookup] at h
      by_cases hk0 : k = k0
      · rw [if_pos hk0] at h; exact Option.noConfusion h
      · rw [if_neg hk0] at h
        simp only [List.map_cons, List.mem_cons, not_or]
        exact ⟨hk0, ih h⟩

theorem alookup_of_mem_keys {g : Graph} {k : Nat} (h : k ∈ keys g) :
    ∃ adj, alookup g k = some adj := by
  cases hh : alookup g k with
  | some adj => exact ⟨adj, rfl⟩
  | none => exact absurd h (not_mem_of_alookup_none hh)

/-- In a well-formed graph, a member of the neighbor list of `x` gives
the corresponding `g[x][nb]` lookup. -/
theorem neighbors_pyLine {g : Graph} (hg : GoodGraph g) {x : Nat}
    {q : Nat × Nat} (hmem : q ∈ neighbors g x) : pyLine g x q.1 = some q.2 := by
  unfold neighbors at hmem
  cases hx : alookup g x with
  | none => rw [hx] at hmem; simp at hmem
  | some adj =>
      rw [hx] at hmem
      simp only [Option.getD_some] at hmem
      have hpair := alookup_mem hx
      have hnd := hg.2.1 (x, adj) hpair
      unfold pyLine
      rw [hx, Option.some_bind]
      exact mem_alookup hnd (by simpa using hmem)

/-- In a well-formed graph, every neighbor is a key. -/
theorem neighbors_closed {g : Graph} (hg : GoodGraph g) {x : Nat}
    {q : Nat × Nat} (hmem : q ∈ neighbors g x) : q.1 ∈ keys g := by
  unfold neighbors at hmem
  cases hx : alookup g x with
  | none => rw [hx] at hmem; simp at hmem
  | some adj =>
      rw [hx] at hmem
      simp only [Option.getD_some] at hmem
      exact hg.2.2 (x, adj) (alookup_mem hx) q hmem

theorem edgeIn_of_neighbors {g : Graph} (hg : GoodGraph g) {x : Nat}
    {q : Nat × Nat} (hmem : q ∈ neighbors g x) : edgeIn g x q.1 := by
  rw [edgeIn_iff]
  exact ⟨q.2, neighbors_pyLine hg hmem⟩

/-! ### Priority-queue pop lemmas -/

theorem entLt_fst_le {x y : ℚ × Nat} (h : entLt x y = true) : x.1 ≤ y.1 := by
  unfold entLt at h
  rcases Bool.or_eq_true_iff.1 h with h1 | h2
  · exact le_of_lt (of_decide_eq_true h1)
  · exact le_of_eq (of_decide_eq_true (Bool.and_eq_true_iff.1 h2).1)

theorem entLt_false_fst_le {x y : ℚ × Nat} (h : entLt x y = false) :
    y.1 ≤ x.1 := by
  unfold entLt at h
  rcases Bool.or_eq_false_iff.1 h with ⟨h1, _⟩
  exact le_of_not_lt (of_decide_eq_false h1)

theorem findMin_le : ∀ (l : List (ℚ × Nat)) (e : ℚ × Nat),
    (findMin e l).1 ≤ e.1 ∧ ∀ x ∈ l, (findMin e l).1 ≤ x.1 := by
  intro l
  induction l with
  | nil => intro e; exact ⟨le_refl _, by simp⟩
  | cons x xs ih =>
      intro e
      simp only [findMin]
      by_cases h : entLt x e = true
      · rw [if_pos h]
        obtain ⟨h1, h2⟩ := ih x
        refine ⟨le_trans h1 (entLt_fst_le h), ?_⟩
        intro y hy
        rcases List.mem_cons.1 hy with hy1 | hy2
        · subst hy1; exact h1
        · exact h2 y hy2
      · rw [if_neg h]
        obtain ⟨h1, h2⟩ := ih e
        refine ⟨h1, ?_⟩
        intro y hy
        rcases List.mem_cons.1 hy with hy1 | hy2
        · subst hy1
          exact le_trans h1 (entLt_false_fst_le (Bool.not_eq_true _ ▸ h))
        · exact h2 y hy2

theorem findMin_mem : ∀ (l : List (ℚ × Nat)) (e : ℚ × Nat),
    findMin e l = e ∨ findMin e l ∈ l := by
  intro l
  induction l with
  | nil => intro e; exact Or.inl rfl
  | cons x xs ih =>
      intro e
      simp only [findMin]
      by_cases h : entLt x e = true
      · rw [if_pos h]
        rcases ih x with h1 | h2
        · exact Or.inr (by rw [h1]; exact List.mem_cons_self _ _)
        · exact Or.inr (List.mem_cons_of_mem _ h2)
      · rw [if_neg h]
        rcases ih e with h1 | h2
        · exact Or.inl h1
        · exact Or.inr (List.mem_cons_of_mem _ h2)

theorem popMin_none_iff (l : List (ℚ × Nat)) : popMin l = none ↔ l = [] := by
  cases l <;> simp [popMin]

theorem eraseFirst_perm : ∀ (l : List (ℚ × Nat)) (e : ℚ × Nat), e ∈ l →
    l.Perm (e :: eraseFirst l e) := by
  intro l
  induction l with
  | nil => intro e he; simp at he
  | cons x xs ih =>
      intro e he
      simp only [eraseFirst]
      by_cases hx : x = e
      · rw [if_pos hx, hx]
      · rw [if_neg hx]
        have he2 : e ∈ xs := by
          rcases List.mem_cons.1 he with h1 | h2
          · exact absurd h1.symm hx
          · exact h2
        exact ((ih e he2).cons x).trans (List.Perm.swap e x _)

theorem mem_of_mem_eraseFirst : ∀ (l : List (ℚ × Nat)) (e y : ℚ × Nat),
    y ∈ eraseFirst l e → y ∈ l := by
  intro l
  induction l with
  | nil => intro e y hy; simp [eraseFirst] at hy
  | cons x xs ih =>
      intro e y hy
      simp only [eraseFirst] at hy
      by_cases hx : x = e
      · rw [if_pos hx] at hy
        exact List.mem_cons_of_mem _ hy
      · rw [if_neg hx] at hy
        rcases List.mem_cons.1 hy with h1 | h2
        · exact h1 ▸ List.mem_cons_self _ _
        · exact List.mem_cons_of_mem _ (ih e y h2)

theorem mem_eraseFirst_of_ne : ∀ (l : List (ℚ × Nat)) (e y : ℚ × Nat),
    y ≠ e → y ∈ l → y ∈ eraseFirst l e := by
  intro l
  induction l with
  | nil => intro e y hne hy; simp at hy
  | cons x xs ih =>
      intro e y hne hy
      simp only [eraseFirst]
      by_cases hx : x = e
      · rw [if_pos hx]
        rcases List.mem_cons.1 hy with h1 | h2
        · exact absurd (h1.trans hx) hne
        · exact h2
      · rw [if_neg hx]
        rcases List.mem_cons.1 hy with h1 | h2
        · exact h1 ▸ List.mem_cons_self _ _
        · exact List.mem_cons_of_mem _ (ih e y hne h2)

theorem popMin_spec {l : List (ℚ × Nat)} {e : ℚ × Nat}
    {rest : List (ℚ × Nat)} (h : popMin l = some (e, rest)) :
    e ∈ l ∧ rest = eraseFirst l e ∧ (∀ x ∈ l, e.1 ≤ x.1) ∧ l.Perm (e :: rest) := by
  cases l with
  | nil => simp [popMin] at h
  | cons x xs =>
      simp only [popMin, Option.some.injEq, Prod.mk.injEq] at h
      obtain ⟨he, hrest⟩ := h
      subst he
      subst hrest
      have hmem : findMin x xs ∈ x :: xs := by
        rcases findMin_mem xs x with h1 | h2
        · rw [h1]; exact List.mem_cons_self _ _
        · exact List.mem_cons_of_mem _ h2
      have hle : ∀ y ∈ x :: xs, (findMin x xs).1 ≤ y.1 := by
        intro y hy
        obtain ⟨h1, h2⟩ := findMin_le xs x
        rcases List.mem_cons.1 hy with hy1 | hy2
        · subst hy1; exact h1
        · exact h2 y hy2
      exact ⟨hmem, rfl, hle, eraseFirst_perm _ _ hmem⟩

/-! ### Elementary bounds on the relaxation cost -/

theorem penaltyQ_nonneg : (0 : ℚ) ≤ penaltyQ := by norm_num [penaltyQ]

theorem pyNewDist_ge (g : Graph) (pn : Option Nat) (node nb : Nat)
    (length d : ℚ) (hd : 0 ≤ d) : length ≤ pyNewDist g pn node nb length d := by
  unfold pyNewDist
  split_ifs
  · have : 0 ≤ d * penaltyQ := mul_nonneg hd penaltyQ_nonneg
    linarith
  · linarith

theorem pyNewDist_mono (g : Graph) (pn : Option Nat) (node nb : Nat)
    {l1 l2 : ℚ} (d : ℚ) (h : l1 ≤ l2) :
    pyNewDist g pn node nb l1 d ≤ pyNewDist g pn node nb l2 d := by
  unfold pyNewDist
  split_ifs <;> linarith

/-! ### The loop invariant -/

/-- A vertex `u` is settled at the value `c`: every outgoing relaxation
of `u` has already been performed with dequeued cost `c` (so no neighbor
can be improved through `u` at this value again), and `c` is a lower
bound of everything still pending in the queue (so `u` itself can no
longer be improved, since every future candidate is at least a pending
entry's cost). -/
def settledAt (g : Graph) (dkm : Nat → Nat → ℚ) (s : DState) (u : Nat)
    (c : ℚ) : Prop :=
  (∀ q ∈ neighbors g u,
      s.dist q.1 ≤ ((pyNewDist g (s.prev u) u q.1 c (dkm u q.1) : ℚ) : WithTop ℚ)) ∧
  ∀ e ∈ s.pq, c ≤ e.1

theorem settledAt_pq_mono (g : Graph) (dkm : Nat → Nat → ℚ) (s : DState)
    (pq' : List (ℚ × Nat)) (hsub : ∀ e ∈ pq', e ∈ s.pq) {u : Nat} {c : ℚ}
    (hs : settledAt g dkm s u c) :
    settledAt g dkm ⟨s.dist, s.prev, pq'⟩ u c :=
  ⟨hs.1, fun e he => hs.2 e (hsub e he)⟩

/-- Settledness is stable under a relaxation update at a vertex `nb`
other than the settled one, provided the settled value is below the new
entry and the update only decreases the distance of `nb`. -/
theorem settledAt_update (g : Graph) (dkm : Nat → Nat → ℚ) (s : DState)
    {u nb : Nat} (x' : Nat) {c nd : ℚ} (hne : u ≠ nb) (hc : c ≤ nd)
    (hlow : ((nd : ℚ) : WithTop ℚ) ≤ s.dist nb)
    (hs : settledAt g dkm s u c) :
    settledAt g dkm
      ⟨Function.update s.dist nb ((nd : ℚ) : WithTop ℚ),
       Function.update s.prev nb (some x'), s.pq ++ [(nd, nb)]⟩ u c := by
  obtain ⟨hn, hq⟩ := hs
  constructor
  · intro q hqm
    have hb := hn q hqm
    show Function.update s.dist nb ((nd : ℚ) : WithTop ℚ) q.1 ≤
      ((pyNewDist g (Function.update s.prev nb (some x') u) u q.1 c
        (dkm u q.1) : ℚ) : WithTop ℚ)
    rw [Function.update_noteq hne]
    by_cases hqb : q.1 = nb
    · rw [hqb, Function.update_same]
      exact le_trans hlow (hqb ▸ hb)
    · rw [Function.update_noteq hqb]
      exact hb
  · intro e he
    rcases List.mem_append.1 he with h1 | h2
    · exact hq e h1
    · simp only [List.mem_singleton] at h2
      rw [h2]
      exact hc

/-- The part of the loop invariant that holds both between iterations
and in the middle of one iteration's relaxations. -/
structure BaseInv (g : Graph) (dkm : Nat → Nat → ℚ) (start : Nat)
    (s : DState) : Prop where
  start_dist : s.dist start = ((0 : ℚ) : WithTop ℚ)
  start_prev : s.prev start = none
  pq_nonneg : ∀ e ∈ s.pq, (0 : ℚ) ≤ e.1
  pq_dist : ∀ e ∈ s.pq, s.dist e.2 ≤ ((e.1 : ℚ) : WithTop ℚ)
  pq_key : ∀ e ∈ s.pq, e.2 ∈ keys g
  prev_key : ∀ v u, s.prev v = some u → u ∈ keys g ∧ v ∈ keys g ∧ edgeIn g u v
  chain : ∀ v u, s.prev v = some u → ∃ cu cv : ℚ,
    s.dist u = ((cu : ℚ) : WithTop ℚ) ∧ s.dist v = ((cv : ℚ) : WithTop ℚ) ∧
    cv = pyNewDist g (s.prev u) u v cu (dkm u v)
  dist_prev : ∀ v, v ≠ start → s.dist v ≠ ⊤ → ∃ u, s.prev v = some u
  dist_key : ∀ v, s.dist v ≠ ⊤ → v ∈ keys g
  reach : ∀ v, s.dist v ≠ ⊤ →
    Relation.ReflTransGen (fun a b => s.prev a = some b) v start

/-- The invariant between loop iterations: on top of `BaseInv`, every
recorded predecessor is settled (so chains can never be invalidated), and
every finite tentative distance is either still pending in the queue or
already settled. -/
structure Inv (g : Graph) (dkm : Nat → Nat → ℚ) (start : Nat) (s : DState)
    extends BaseInv g dkm start s : Prop where
  parent_settled : ∀ v u, s.prev v = some u → ∃ cu : ℚ,
    s.dist u = ((cu : ℚ) : WithTop ℚ) ∧ settledAt g dkm s u cu
  settled_or_queued : ∀ v (c : ℚ), s.dist v = ((c : ℚ) : WithTop ℚ) →
    (c, v) ∈ s.pq ∨ settledAt g dkm s v c

/-- The invariant in the middle of processing the dequeued entry
`(m, x)` whose cost is fresh (`dist x = m`). -/
structure MidInv (g : Graph) (dkm : Nat → Nat → ℚ) (start x : Nat) (m : ℚ)
    (s : DState) extends BaseInv g dkm start s : Prop where
  x_dist : s.dist x = ((m : ℚ) : WithTop ℚ)
  x_pq_low : ∀ e ∈ s.pq, m ≤ e.1
  m_nonneg : (0 : ℚ) ≤ m
  x_key : x ∈ keys g
  mid_parent : ∀ v u, s.prev v = some u → u = x ∨ ∃ cu : ℚ,
    s.dist u = ((cu : ℚ) : WithTop ℚ) ∧ settledAt g dkm s u cu ∧ cu ≤ m
  mid_settled : ∀ v (c : ℚ), v ≠ x → s.dist v = ((c : ℚ) : WithTop ℚ) →
    (c, v) ∈ s.pq ∨ (settledAt g dkm s v c ∧ c ≤ m)

/-- Rerouting a predecessor pointer at a vertex `nb` through which no
recorded chain passes (every chain vertex satisfies `P`, which `nb`
fails) preserves reachability of the source. -/
theorem reach_update (prev : Nat → Option Nat) (start nb x' : Nat)
    (P : Nat → Prop) (hP : ∀ v u, prev v = some u → P u) (hnb : ¬ P nb)
    (hx : x' ≠ nb) (hnb_start : nb ≠ start)
    (hxr : Relation.ReflTransGen (fun a b => prev a = some b) x' start) :
    ∀ w, Relation.ReflTransGen (fun a b => prev a = some b) w start →
      Relation.ReflTransGen
        (fun a b => Function.update prev nb (some x') a = some b) w start := by
  have havoid : ∀ w,
      Relation.ReflTransGen (fun a b => prev a = some b) w start → w ≠ nb →
      Relation.ReflTransGen
        (fun a b => Function.update prev nb (some x') a = some b) w start := by
    intro w hw
    induction hw using Relation.ReflTransGen.head_induction_on with
    | refl => intro _; exact Relation.ReflTransGen.refl
    | @head a c hstep htail ih =>
        intro hwnb
        refine Relation.ReflTransGen.head ?_ (ih ?_)
        · rw [Function.update_noteq hwnb]
          exact hstep
        · intro hc
          exact hnb (hc ▸ hP _ _ hstep)
  intro w hw
  induction hw using Relation.ReflTransGen.head_induction_on with
  | refl => exact Relation.ReflTransGen.refl
  | @head a c hstep htail ih =>
      by_cases ha : a = nb
      · subst ha
        refine Relation.ReflTransGen.head (b := x') ?_ (havoid x' hxr hx)
        rw [Function.update_same]
      · exact Relation.ReflTransGen.head
          (by rw [Function.update_noteq ha]; exact hstep) ih

/-- `relaxStep` written as an explicit conditional (definitional). -/
theorem relaxStep_eq (g : Graph) (dkm : Nat → Nat → ℚ) (length : ℚ)
    (node : Nat) (s : DState) (p : Nat × Nat) :
    relaxStep g dkm length node s p =
      if ((pyNewDist g (s.prev node) node p.1 length (dkm node p.1) : ℚ) :
          WithTop ℚ) < s.dist p.1 then
        ⟨Function.update s.dist p.1
            ((pyNewDist g (s.prev node) node p.1 length (dkm node p.1) : ℚ) :
              WithTop ℚ),
         Function.update s.prev p.1 (some node),
         s.pq ++ [(pyNewDist g (s.prev node) node p.1 length (dkm node p.1),
           p.1)]⟩
      else s := rfl

/-- One relaxation of a neighbor of the freshly-dequeued vertex `x`
preserves the mid-iteration invariant; moreover afterwards the neighbor's
distance is bounded by the candidate computed from `x`'s state, and `x`'s
own distance and predecessor are untouched while all distances only
decrease. -/
theorem midInv_relaxStep (g : Graph) (dkm : Nat → Nat → ℚ) (start x : Nat)
    (m : ℚ) (s : DState) (q : Nat × Nat)
    (hg : GoodGraph g) (hd : ∀ a b, 0 ≤ dkm a b)
    (hq : q ∈ neighbors g x) (hmid : MidInv g dkm start x m s) :
    MidInv g dkm start x m (relaxStep g dkm m x s q) ∧
    (relaxStep g dkm m x s q).dist q.1 ≤
      ((pyNewDist g (s.prev x) x q.1 m (dkm x q.1) : ℚ) : WithTop ℚ) ∧
    (relaxStep g dkm m x s q).prev x = s.prev x ∧
    (relaxStep g dkm m x s q).dist x = s.dist x ∧
    (∀ v, (relaxStep g dkm m x s q).dist v ≤ s.dist v) := by
  have hnd_ge : m ≤ pyNewDist g (s.prev x) x q.1 m (dkm x q.1) :=
    pyNewDist_ge g (s.prev x) x q.1 m (dkm x q.1) (hd x q.1)
  have hnd_nonneg : (0 : ℚ) ≤ pyNewDist g (s.prev x) x q.1 m (dkm x q.1) :=
    le_trans hmid.m_nonneg hnd_ge
  rw [relaxStep_eq]
  set nb := q.1 with hnb_def
  set nd := pyNewDist g (s.prev x) x nb m (dkm x nb) with hnd_def
  by_cases hlt : ((nd : ℚ) : WithTop ℚ) < s.dist nb
  case neg =>
      rw [if_neg hlt]
      exact ⟨hmid, le_of_not_lt hlt, rfl, rfl, fun v => le_refl _⟩
  case pos =>
      rw [if_pos hlt]
      have hnbx : nb ≠ x := by
        intro h
        rw [h, hmid.x_dist] at hlt
        exact absurd (WithTop.coe_lt_coe.1 hlt) (not_lt.2 hnd_ge)
      have hxnb : x ≠ nb := Ne.symm hnbx
      have hnb_start : nb ≠ start := by
        intro h
        rw [h, hmid.start_dist] at hlt
        have := WithTop.coe_lt_coe.1 hlt
        linarith
      have hstart_nb : start ≠ nb := Ne.symm hnb_start
      have hnb_keys : nb ∈ keys g := neighbors_closed hg hq
      have hedge : edgeIn g x nb := edgeIn_of_neighbors hg hq
      have hnb_not_low : ¬ ∃ c : ℚ, s.dist nb = ((c : ℚ) : WithTop ℚ) ∧
          settledAt g dkm s nb c ∧ c ≤ m := by
        rintro ⟨c, hc, _, hcm⟩
        rw [hc] at hlt
        have := WithTop.coe_lt_coe.1 hlt
        linarith
      have hparent_ne_nb : ∀ v u, s.prev v = some u → u ≠ nb := by
        intro v u hvu hu
        rcases hmid.mid_parent v u hvu with h1 | ⟨cu, hcu, hsu, hcum⟩
        · exact hnbx (hu ▸ h1)
        · exact hnb_not_low ⟨cu, hu ▸ hcu, hu ▸ hsu, hcum⟩
      have hlow : ((nd : ℚ) : WithTop ℚ) ≤ s.dist nb := le_of_lt hlt
      have hdist_mono : ∀ v,
          Function.update s.dist nb ((nd : ℚ) : WithTop ℚ) v ≤ s.dist v := by
        intro v
        by_cases hv : v = nb
        · rw [hv, Function.update_same]; exact hlow
        · rw [Function.update_noteq hv]
      refine ⟨⟨⟨?_, ?_, ?_, ?_, ?_, ?_, ?_, ?_, ?_, ?_⟩, ?_, ?_, ?_, ?_, ?_, ?_⟩,
        ?_, ?_, ?_, ?_⟩
      · -- start_dist
        show Function.update s.dist nb _ start = _
        rw [Function.update_noteq hstart_nb]
        exact hmid.start_dist
      · -- start_prev
        show Function.update s.prev nb _ start = _
        rw [Function.update_noteq hstart_nb]
        exact hmid.start_prev
      · -- pq_nonneg
        intro e he
        rcases List.mem_append.1 he with h1 | h2
        · exact hmid.pq_nonneg e h1
        · simp only [List.mem_singleton] at h2
          rw [h2]
          exact hnd_nonneg
      · -- pq_dist
        intro e he
        rcases List.mem_append.1 he with h1 | h2
        · exact le_trans (hdist_mono e.2) (hmid.pq_dist e h1)
        · simp only [List.mem_singleton] at h2
          rw [h2]
          show Function.update s.dist nb _ nb ≤ _
          rw [Function.update_same]
      · -- pq_key
        intro e he
        rcases List.mem_append.1 he with h1 | h2
        · exact hmid.pq_key e h1
        · simp only [List.mem_singleton] at h2
          rw [h2]
          exact hnb_keys
      · -- prev_key
        intro v u hvu
        by_cases hv : v = nb
        · rw [hv] at hvu
          show _ ∧ _ ∧ _
          have hu : u = x := by
            dsimp only at hvu
            rw [Function.update_same] at hvu
            exact (Option.some.inj hvu).symm
          subst hu
          exact ⟨hmid.x_key, hv ▸ hnb_keys, hv ▸ hedge⟩
        · rw [show (⟨Function.update s.dist nb _, Function.update s.prev nb
              (some x), s.pq ++ [(nd, nb)]⟩ : DState).prev v =
              s.prev v from Function.update_noteq hv _ _] at hvu
          exact hmid.prev_key v u hvu
      · -- chain
        intro v u hvu
        by_cases hv : v = nb
        · have hu : u = x := by
            rw [hv] at hvu
            dsimp only at hvu
            rw [Function.update_same] at hvu
            exact (Option.some.inj hvu).symm
          subst hu
          refine ⟨m, nd, ?_, ?_, ?_⟩
          · show Function.update s.dist nb _ u = _
            rw [Function.update_noteq hxnb]
            exact hmid.x_dist
          · show Function.update s.dist nb _ v = _
            rw [hv, Function.update_same]
          · show nd = pyNewDist g (Function.update s.prev nb (some u) u) u v m
              (dkm u v)
            rw [Function.update_noteq hxnb, hv]
        · have hvu' : s.prev v = some u := by
            rwa [show (⟨Function.update s.dist nb _, Function.update s.prev nb
              (some x), s.pq ++ [(nd, nb)]⟩ : DState).prev v =
              s.prev v from Function.update_noteq hv _ _] at hvu
          have hu_ne : u ≠ nb := hparent_ne_nb v u hvu'
          obtain ⟨cu, cv, hcu, hcv, hstep⟩ := hmid.chain v u hvu'
          refine ⟨cu, cv, ?_, ?_, ?_⟩
          · show Function.update s.dist nb _ u = _
            rw [Function.update_noteq hu_ne]
            exact hcu
          · show Function.update s.dist nb _ v = _
            rw [Function.update_noteq hv]
            exact hcv
          · show cv = pyNewDist g (Function.update s.prev nb (some x) u) u v cu
              (dkm u v)
            rw [Function.update_noteq hu_ne]
            exact hstep
      · -- dist_prev
        intro v hvs hvt
        by_cases hv : v = nb
        · refine ⟨x, ?_⟩
          show Function.update s.prev nb (some x) v = some x
          rw [hv, Function.update_same]
        · have hvt' : s.dist v ≠ ⊤ := by
            rwa [show (⟨Function.update s.dist nb _, Function.update s.prev nb
              (some x), s.pq ++ [(nd, nb)]⟩ : DState).dist v =
              s.dist v from Function.update_noteq hv _ _] at hvt
          obtain ⟨u, hu⟩ := hmid.dist_prev v hvs hvt'
          refine ⟨u, ?_⟩
          show Function.update s.prev nb (some x) v = some u
          rw [Function.update_noteq hv]
          exact hu
      · -- dist_key
        intro v hvt
        by_cases hv : v = nb
        · rw [hv]; exact hnb_keys
        · have hvt' : s.dist v ≠ ⊤ := by
            rwa [show (⟨Function.update s.dist nb _, Function.update s.prev nb
              (some x), s.pq ++ [(nd, nb)]⟩ : DState).dist v =
              s.dist v from Function.update_noteq hv _ _] at hvt
          exact hmid.dist_key v hvt'
      · -- reach
        have hx_fin : s.dist x ≠ ⊤ := by
          rw [hmid.x_dist]
          exact WithTop.coe_ne_top
        have hreach_x := hmid.reach x hx_fin
        have hnotP : ¬ (fun u => u = x ∨ ∃ cu : ℚ,
            s.dist u = ((cu : ℚ) : WithTop ℚ) ∧ settledAt g dkm s u cu ∧
            cu ≤ m) nb := by
          rintro (h | h)
          · exact hnbx h
          · exact hnb_not_low h
        have hmain := reach_update s.prev start nb x
          (fun u => u = x ∨ ∃ cu : ℚ, s.dist u = ((cu : ℚ) : WithTop ℚ) ∧
            settledAt g dkm s u cu ∧ cu ≤ m)
          (fun v u hvu => hmid.mid_parent v u hvu) hnotP hxnb hnb_start hreach_x
        intro v hvt
        by_cases hv : v = nb
        · subst hv
          refine Relation.ReflTransGen.head (b := x) ?_ (hmain x hreach_x)
          show Function.update s.prev nb (some x) nb = some x
          rw [Function.update_same]
        · have hvt' : s.dist v ≠ ⊤ := by
            rwa [show (⟨Function.update s.dist nb _, Function.update s.prev nb
              (some x), s.pq ++ [(nd, nb)]⟩ : DState).dist v =
              s.dist v from Function.update_noteq hv _ _] at hvt
          exact hmain v (hmid.reach v hvt')
      · -- x_dist
        show Function.update s.dist nb _ x = _
        rw [Function.update_noteq hxnb]
        exact hmid.x_dist
      · -- x_pq_low
        intro e he
        rcases List.mem_append.1 he with h1 | h2
        · exact hmid.x_pq_low e h1
        · simp only [List.mem_singleton] at h2
          rw [h2]
          exact hnd_ge
      · -- m_nonneg
        exact hmid.m_nonneg
      · -- x_key
        exact hmid.x_key
      · -- mid_parent
        intro v u hvu
        by_cases hv : v = nb
        · left
          rw [hv] at hvu
          dsimp only at hvu
          rw [Function.update_same] at hvu
          exact (Option.some.inj hvu).symm
        · have hvu' : s.prev v = some u := by
            rwa [show (⟨Function.update s.dist nb _, Function.update s.prev nb
              (some x), s.pq ++ [(nd, nb)]⟩ : DState).prev v =
              s.prev v from Function.update_noteq hv _ _] at hvu
          rcases hmid.mid_parent v u hvu' with h1 | ⟨cu, hcu, hsu, hcum⟩
          · exact Or.inl h1
          · right
            have hu_ne : u ≠ nb := hparent_ne_nb v u hvu'
            refine ⟨cu, ?_, ?_, hcum⟩
            · show Function.update s.dist nb _ u = _
              rw [Function.update_noteq hu_ne]
              exact hcu
            · exact settledAt_update g dkm s x hu_ne
                (le_trans hcum hnd_ge) hlow hsu
      · -- mid_settled
        intro v c hvx hvc
        by_cases hv : v = nb
        · left
          have : c = nd := by
            rw [hv] at hvc
            dsimp only at hvc
            rw [Function.update_same] at hvc
            exact WithTop.coe_inj.1 hvc.symm
          rw [this, hv]
          exact List.mem_append_right _ (List.mem_singleton_self _)
        · have hvc' : s.dist v = ((c : ℚ) : WithTop ℚ) := by
            rwa [show (⟨Function.update s.dist nb _, Function.update s.prev nb
              (some x), s.pq ++ [(nd, nb)]⟩ : DState).dist v =
              s.dist v from Function.update_noteq hv _ _] at hvc
          rcases hmid.mid_settled v c hvx hvc' with h1 | ⟨hs, hcm⟩
          · exact Or.inl (List.mem_append_left _ h1)
          · right
            refine ⟨?_, hcm⟩
            exact settledAt_update g dkm s x hv (le_trans hcm hnd_ge) hlow hs
      · -- neighbor bound
        show Function.update s.dist nb _ nb ≤ _
        rw [Function.update_same]
      · -- prev x untouched
        show Function.update s.prev nb (some x) x = s.prev x
        rw [Function.update_noteq hxnb]
      · -- dist x untouched
        show Function.update s.dist nb _ x = s.dist x
        rw [Function.update_noteq hxnb]
      · -- distances only decrease
        exact hdist_mono

/-- Folding one relaxation per neighbor preserves the mid-iteration
invariant, leaves `x` untouched, only decreases distances, and bounds
every processed neighbor by its candidate. -/
theorem midInv_relaxAll (g : Graph) (dkm : Nat → Nat → ℚ) (start x : Nat)
    (m : ℚ) (hg : GoodGraph g) (hd : ∀ a b, 0 ≤ dkm a b) :
    ∀ (todo : List (Nat × Nat)) (s : DState),
      (∀ q ∈ todo, q ∈ neighbors g x) →
      MidInv g dkm start x m s →
      MidInv g dkm start x m (todo.foldl (relaxStep g dkm m x) s) ∧
      (todo.foldl (relaxStep g dkm m x) s).prev x = s.prev x ∧
      (todo.foldl (relaxStep g dkm m x) s).dist x = s.dist x ∧
      (∀ v, (todo.foldl (relaxStep g dkm m x) s).dist v ≤ s.dist v) ∧
      ∀ q ∈ todo, (todo.foldl (relaxStep g dkm m x) s).dist q.1 ≤
        ((pyNewDist g ((todo.foldl (relaxStep g dkm m x) s).prev x) x q.1 m
          (dkm x q.1) : ℚ) : WithTop ℚ) := by
  intro todo
  induction todo with
  | nil =>
      intro s hmem hmid
      exact ⟨hmid, rfl, rfl, fun v => le_refl _, by simp⟩
  | cons q rest ih =>
      intro s hmem hmid
      obtain ⟨hmid1, hbound, hprevx, hdistx, hmono⟩ :=
        midInv_relaxStep g dkm start x m s q hg hd
          (hmem q (List.mem_cons_self _ _)) hmid
      obtain ⟨hmid2, hprevx2, hdistx2, hmono2, hbounds2⟩ :=
        ih (relaxStep g dkm m x s q)
          (fun q' hq' => hmem q' (List.mem_cons_of_mem _ hq')) hmid1
      simp only [List.foldl_cons]
      refine ⟨hmid2, hprevx2.trans hprevx, hdistx2.trans hdistx,
        fun v => le_trans (hmono2 v) (hmono v), ?_⟩
      intro q' hq'
      rcases List.mem_cons.1 hq' with h1 | h2
      · subst h1
        rw [hprevx2, hprevx]
        exact le_trans (hmono2 q'.1) hbound
      · exact hbounds2 q' h2

/-- Processing a stale queue entry performs no update at all. -/
theorem stale_relaxAll (g : Graph) (dkm : Nat → Nat → ℚ) (x : Nat)
    (m c : ℚ) (s : DState) (hcm : c ≤ m)
    (hnb_bound : ∀ q ∈ neighbors g x,
      s.dist q.1 ≤ ((pyNewDist g (s.prev x) x q.1 c (dkm x q.1) : ℚ) :
        WithTop ℚ)) :
    ∀ todo : List (Nat × Nat), (∀ q ∈ todo, q ∈ neighbors g x) →
      todo.foldl (relaxStep g dkm m x) s = s := by
  intro todo
  induction todo with
  | nil => intro _; rfl
  | cons q rest ih =>
      intro hmem
      have hnotlt : ¬ (((pyNewDist g (s.prev x) x q.1 m (dkm x q.1) : ℚ) :
          WithTop ℚ) < s.dist q.1) := by
        have h1 := hnb_bound q (hmem q (List.mem_cons_self _ _))
        have h2 : pyNewDist g (s.prev x) x q.1 c (dkm x q.1) ≤
            pyNewDist g (s.prev x) x q.1 m (dkm x q.1) :=
          pyNewDist_mono g (s.prev x) x q.1 (dkm x q.1) hcm
        exact not_lt.2 (le_trans h1 (WithTop.coe_le_coe.2 h2))
      have hstep : relaxStep g dkm m x s q = s := by
        rw [relaxStep_eq, if_neg hnotlt]
      rw [List.foldl_cons, hstep]
      exact ih (fun q' h => hmem q' (List.mem_cons_of_mem _ h))

/-- Popping a fresh entry (its cost equals the vertex's tentative
distance) and relaxing all its neighbors preserves the between-iteration
invariant. -/
theorem inv_pop_fresh (g : Graph) (dkm : Nat → Nat → ℚ) (start x : Nat)
    (m : ℚ) (s : DState) (rest : List (ℚ × Nat))
    (hg : GoodGraph g) (hd : ∀ a b, 0 ≤ dkm a b)
    (hinv : Inv g dkm start s)
    (hpop : popMin s.pq = some ((m, x), rest))
    (hfresh : s.dist x = ((m : ℚ) : WithTop ℚ)) :
    Inv g dkm start
      ((neighbors g x).foldl (relaxStep g dkm m x) ⟨s.dist, s.prev, rest⟩) := by
  obtain ⟨hmem, hrest, hmin, _⟩ := popMin_spec hpop
  have hsub : ∀ e ∈ rest, e ∈ s.pq := by
    intro e he
    rw [hrest] at he
    exact mem_of_mem_eraseFirst _ _ _ he
  have hmid : MidInv g dkm start x m ⟨s.dist, s.prev, rest⟩ := by
    refine ⟨⟨hinv.start_dist, hinv.start_prev,
      fun e he => hinv.pq_nonneg e (hsub e he),
      fun e he => hinv.pq_dist e (hsub e he),
      fun e he => hinv.pq_key e (hsub e he),
      hinv.prev_key, hinv.chain, hinv.dist_prev, hinv.dist_key, hinv.reach⟩,
      hfresh, fun e he => hmin e (hsub e he),
      hinv.pq_nonneg (m, x) hmem, hinv.pq_key (m, x) hmem, ?_, ?_⟩
    · intro v u hvu
      right
      obtain ⟨cu, hcu, hsu⟩ := hinv.parent_settled v u hvu
      exact ⟨cu, hcu, settledAt_pq_mono g dkm s rest hsub hsu,
        hsu.2 (m, x) hmem⟩
    · intro v c hvx hvc
      rcases hinv.settled_or_queued v c hvc with h1 | h2
      · left
        rw [hrest]
        refine mem_eraseFirst_of_ne _ _ _ ?_ h1
        intro hc
        exact hvx (congrArg Prod.snd hc)
      · exact Or.inr ⟨settledAt_pq_mono g dkm s rest hsub h2,
          h2.2 (m, x) hmem⟩
  obtain ⟨hmid', hprevx, hdistx, hmono, hbounds⟩ :=
    midInv_relaxAll g dkm start x m hg hd (neighbors g x)
      ⟨s.dist, s.prev, rest⟩ (fun q hq => hq) hmid
  have hx_settled : settledAt g dkm
      ((neighbors g x).foldl (relaxStep g dkm m x) ⟨s.dist, s.prev, rest⟩)
      x m :=
    ⟨fun q hq => hbounds q hq, fun e he => hmid'.x_pq_low e he⟩
  refine ⟨hmid'.toBaseInv, ?_, ?_⟩
  · intro v u hvu
    rcases hmid'.mid_parent v u hvu with h1 | ⟨cu, hcu, hsu, _⟩
    · exact ⟨m, h1 ▸ hmid'.x_dist, h1 ▸ hx_settled⟩
    · exact ⟨cu, hcu, hsu⟩
  · intro v c hvc
    by_cases hvx : v = x
    · right
      have hcm : c = m := by
        rw [hvx, hmid'.x_dist] at hvc
        exact WithTop.coe_inj.1 hvc.symm
      rw [hcm, hvx]
      exact hx_settled
    · rcases hmid'.mid_settled v c hvx hvc with h1 | ⟨h2, _⟩
      · exact Or.inl h1
      · exact Or.inr h2

/-- Popping a stale entry is a no-op on `dist` and `prev`, and the
between-iteration invariant survives the entry's removal. -/
theorem inv_pop_stale (g : Graph) (dkm : Nat → Nat → ℚ) (start x : Nat)
    (m : ℚ) (s : DState) (rest : List (ℚ × Nat))
    (hinv : Inv g dkm start s)
    (hpop : popMin s.pq = some ((m, x), rest)) (c : ℚ)
    (hc : s.dist x = ((c : ℚ) : WithTop ℚ)) (hlt : c < m) :
    (neighbors g x).foldl (relaxStep g dkm m x) ⟨s.dist, s.prev, rest⟩ =
      ⟨s.dist, s.prev, rest⟩ ∧
    Inv g dkm start ⟨s.dist, s.prev, rest⟩ := by
  obtain ⟨hmem, hrest, hmin, _⟩ := popMin_spec hpop
  have hsub : ∀ e ∈ rest, e ∈ s.pq := by
    intro e he
    rw [hrest] at he
    exact mem_of_mem_eraseFirst _ _ _ he
  have hsx : settledAt g dkm s x c := by
    rcases hinv.settled_or_queued x c hc with h1 | h2
    · exfalso
      have := hmin (c, x) h1
      simp only at this
      linarith
    · exact h2
  constructor
  · exact stale_relaxAll g dkm x m c ⟨s.dist, s.prev, rest⟩ (le_of_lt hlt)
      (fun q hq => hsx.1 q hq) (neighbors g x) (fun q hq => hq)
  · refine ⟨⟨hinv.start_dist, hinv.start_prev,
      fun e he => hinv.pq_nonneg e (hsub e he),
      fun e he => hinv.pq_dist e (hsub e he),
      fun e he => hinv.pq_key e (hsub e he),
      hinv.prev_key, hinv.chain, hinv.dist_prev, hinv.dist_key, hinv.reach⟩,
      ?_, ?_⟩
    · intro v u hvu
      obtain ⟨cu, hcu, hsu⟩ := hinv.parent_settled v u hvu
      exact ⟨cu, hcu, settledAt_pq_mono g dkm s rest hsub hsu⟩
    · intro v c' hvc
      by_cases hvx : v = x
      · right
        have hcc : c' = c := by
          rw [hvx, hc] at hvc
          exact WithTop.coe_inj.1 hvc.symm
        rw [hcc, hvx]
        exact settledAt_pq_mono g dkm s rest hsub hsx
      · rcases hinv.settled_or_queued v c' hvc with h1 | h2
        · left
          rw [hrest]
          refine mem_eraseFirst_of_ne _ _ _ ?_ h1
          intro hcon
          exact hvx (congrArg Prod.snd hcon)
        · exact Or.inr (settledAt_pq_mono g dkm s rest hsub h2)

/-- The loop invariant is preserved by any number of iterations of the
main loop (for runs where the ambient `routes` is the argument `g`). -/
theorem inv_dloop (g : Graph) (dkm : Nat → Nat → ℚ) (start : Nat)
    (hg : GoodGraph g) (hd : ∀ a b, 0 ≤ dkm a b) :
    ∀ (fuel : Nat) (s : DState), Inv g dkm start s →
      Inv g dkm start (dloop g dkm g fuel s) := by
  intro fuel
  induction fuel with
  | zero => intro s hinv; exact hinv
  | succ n ih =>
      intro s hinv
      cases hpop : popMin s.pq with
      | none =>
          simp only [dloop, hpop]
          exact hinv
      | some pr =>
          obtain ⟨⟨m, x⟩, rest⟩ := pr
          simp only [dloop, hpop]
          obtain ⟨hmem, _, _, _⟩ := popMin_spec hpop
          have hdx := hinv.pq_dist (m, x) hmem
          cases hcx : s.dist x with
          | top =>
              rw [hcx] at hdx
              exact absurd hdx (by simp [top_le_iff])
          | coe c =>
              have hcm : c ≤ m := by
                rw [hcx] at hdx
                exact WithTop.coe_le_coe.1 hdx
              rcases lt_or_eq_of_le hcm with hlt | heq
              · obtain ⟨hfold, hinv'⟩ :=
                  inv_pop_stale g dkm start x m s rest hinv hpop c hcx hlt
                rw [hfold]
                exact ih _ hinv'
              · subst heq
                exact ih _ (inv_pop_fresh g dkm start x c s rest hg hd hinv
                  hpop hcx)

/-- The initial state satisfies the invariant. -/
theorem inv_init (g : Graph) (dkm : Nat → Nat → ℚ) (start : Nat)
    (hstart : start ∈ keys g) : Inv g dkm start (initState start) := by
  have hdist : ∀ v, (initState start).dist v =
      if v = start then ((0 : ℚ) : WithTop ℚ) else ⊤ := fun v => rfl
  refine ⟨⟨?_, rfl, ?_, ?_, ?_, ?_, ?_, ?_, ?_, ?_⟩, ?_, ?_⟩
  · rw [hdist, if_pos rfl]
  · intro e he
    simp only [initState, List.mem_singleton] at he
    rw [he]
  · intro e he
    simp only [initState, List.mem_singleton] at he
    rw [he]
    show (initState start).dist start ≤ _
    rw [hdist, if_pos rfl]
  · intro e he
    simp only [initState, List.mem_singleton] at he
    rw [he]
    exact hstart
  · intro v u hvu
    exact Option.noConfusion hvu
  · intro v u hvu
    exact Option.noConfusion hvu
  · intro v hvs hvt
    exfalso
    rw [hdist, if_neg hvs] at hvt
    exact hvt rfl
  · intro v hvt
    by_cases hvs : v = start
    · rw [hvs]; exact hstart
    · exfalso
      rw [hdist, if_neg hvs] at hvt
      exact hvt rfl
  · intro v hvt
    by_cases hvs : v = start
    · rw [hvs]
    · exfalso
      rw [hdist, if_neg hvs] at hvt
      exact hvt rfl
  · intro v u hvu
    exact Option.noConfusion hvu
  · intro v c hvc
    rw [hdist] at hvc
    by_cases hvs : v = start
    · left
      rw [if_pos hvs] at hvc
      have hc0 : c = 0 := WithTop.coe_inj.1 hvc.symm
      rw [hc0, hvs]
      exact List.mem_singleton_self _
    · rw [if_neg hvs] at hvc
      exact absurd hvc.symm (by simp)

/-! ### Extracting the predecessor chain of a reachable vertex -/

/-- Iterate the predecessor map `n` times. -/
def iterN (prev : Nat → Option Nat) : Nat → Nat → Option Nat
  | 0, v => some v
  | n + 1, v =>
      match prev v with
      | none => none
      | some u => iterN prev n u

/-- The chain of vertices from `v` back along `prev`. -/
def iterListN (prev : Nat → Option Nat) : Nat → Nat → List Nat
  | 0, v => [v]
  | n + 1, v =>
      v :: (match prev v with
            | none => []
            | some u => iterListN prev n u)

/-- The cost that the engine's chain-consistency invariant assigns to a
reversed path (target first): each step from `u` to `v` contributes the
relaxation cost of edge (u, v), with the penalty guard evaluated at the
next chain element (the predecessor of `u`). -/
def codeCostRev (g : Graph) (dkm : Nat → Nat → ℚ) : List Nat → ℚ
  | v :: u :: rest =>
      (if transferGuard g rest.head? u v then dkm u v * penaltyQ
       else dkm u v) + codeCostRev g dkm (u :: rest)
  | _ => 0

theorem reach_iterN {prev : Nat → Option Nat} {start v : Nat}
    (h : Relation.ReflTransGen (fun a b => prev a = some b) v start) :
    ∃ n, iterN prev n v = some start := by
  induction h using Relation.ReflTransGen.head_induction_on with
  | refl => exact ⟨0, rfl⟩
  | @head a c hstep htail ih =>
      obtain ⟨n, hn⟩ := ih
      refine ⟨n + 1, ?_⟩
      simp only [iterN, hstep]
      exact hn

theorem iterN_add (prev : Nat → Option Nat) :
    ∀ (i j : Nat) (v : Nat),
      iterN prev (i + j) v =
        match iterN prev i v with
        | none => none
        | some w => iterN prev j w := by
  intro i
  induction i with
  | zero =>
      intro j v
      simp [iterN, Nat.zero_add]
  | succ n ih =>
      intro j v
      have harr : n + 1 + j = (n + j) + 1 := by omega
      rw [harr]
      cases hp : prev v with
      | none => simp [iterN, hp]
      | some u =>
          simp only [iterN, hp]
          exact ih j u

theorem iterListN_shape (prev : Nat → Option Nat) :
    ∀ (n v : Nat), ∃ t, iterListN prev n v = v :: t := by
  intro n v
  cases n with
  | zero => exact ⟨[], rfl⟩
  | succ k => exact ⟨_, rfl⟩

theorem iterListN_length (prev : Nat → Option Nat) (start : Nat) :
    ∀ (n v : Nat), iterN prev n v = some start →
      (iterListN prev n v).length = n + 1 := by
  intro n
  induction n with
  | zero => intro v _; rfl
  | succ k ih =>
      intro v hn
      cases hp : prev v with
      | none => simp [iterN, hp] at hn
      | some u =>
          have hn' : iterN prev k u = some start := by
            simpa [iterN, hp] using hn
          simp only [iterListN, hp, List.length_cons]
          rw [ih u hn']

theorem mem_iterListN (prev : Nat → Option Nat) (start : Nat) :
    ∀ (n v : Nat), iterN prev n v = some start →
      ∀ w ∈ iterListN prev n v, ∃ i, i ≤ n ∧ iterN prev i v = some w := by
  intro n
  induction n with
  | zero =>
      intro v _ w hw
      simp only [iterListN, List.mem_singleton] at hw
      exact ⟨0, le_refl _, by rw [hw]; rfl⟩
  | succ k ih =>
      intro v hn w hw
      cases hp : prev v with
      | none => simp [iterN, hp] at hn
      | some u =>
          have hn' : iterN prev k u = some start := by
            simpa [iterN, hp] using hn
          rw [show iterListN prev (k + 1) v = v :: iterListN prev k u from by
            simp [iterListN, hp]] at hw
          rcases List.mem_cons.1 hw with h1 | h2
          · exact ⟨0, Nat.zero_le _, by rw [h1]; rfl⟩
          · obtain ⟨i, hi, hiw⟩ := ih u hn' w h2
            refine ⟨i + 1, by omega, ?_⟩
            simp only [iterN, hp]
            exact hiw

theorem iterListN_nodup (prev : Nat → Option Nat) (start : Nat) :
    ∀ (n v : Nat), iterN prev n v = some start →
      (∀ k, iterN prev k v = some start → n ≤ k) →
      (iterListN prev n v).Nodup := by
  intro n
  induction n with
  | zero => intro v _ _; simp [iterListN]
  | succ k ih =>
      intro v hn hmin
      cases hp : prev v with
      | none => simp [iterN, hp] at hn
      | some u =>
          have hn' : iterN prev k u = some start := by
            simpa [iterN, hp] using hn
          have hmin' : ∀ j, iterN prev j u = some start → k ≤ j := by
            intro j hj
            have hj' : iterN prev (j + 1) v = some start := by
              simp only [iterN, hp]
              exact hj
            have := hmin (j + 1) hj'
            omega
          rw [show iterListN prev (k + 1) v = v :: iterListN prev k u from by
            simp [iterListN, hp]]
          rw [List.nodup_cons]
          refine ⟨?_, ih u hn' hmin'⟩
          intro hvmem
          obtain ⟨i, hi, hiv⟩ := mem_iterListN prev start k u hn' v hvmem
          have hcyc : iterN prev (i + 1) v = some v := by
            simp only [iterN, hp]
            exact hiv
          have hsplit : (i + 1) + (k - i) = k + 1 := by omega
          have hadd := iterN_add prev (i + 1) (k - i) v
          rw [hsplit, hcyc] at hadd
          simp only at hadd
          have hshort : iterN prev (k - i) v = some start := by
            rw [← hadd]
            exact hn
          have := hmin (k - i) hshort
          omega

theorem iterListN_getLast (prev : Nat → Option Nat) (start : Nat) :
    ∀ (n v : Nat), iterN prev n v = some start →
      (iterListN prev n v).getLast? = some start := by
  intro n
  induction n with
  | zero =>
      intro v hn
      have : v = start := Option.some.inj hn
      simp [iterListN, this]
  | succ k ih =>
      intro v hn
      cases hp : prev v with
      | none => simp [iterN, hp] at hn
      | some u =>
          have hn' : iterN prev k u = some start := by
            simpa [iterN, hp] using hn
          obtain ⟨t, ht⟩ := iterListN_shape prev k u
          rw [show iterListN prev (k + 1) v = v :: iterListN prev k u from by
            simp [iterListN, hp], ht, List.getLast?_cons_cons, ← ht]
          exact ih u hn'

theorem iterListN_chain_prev (prev : Nat → Option Nat) (start : Nat) :
    ∀ (n v : Nat), iterN prev n v = some start →
      List.Chain' (fun a b => prev a = some b) (iterListN prev n v) := by
  intro n
  induction n with
  | zero => intro v _; exact List.chain'_singleton _
  | succ k ih =>
      intro v hn
      cases hp : prev v with
      | none => simp [iterN, hp] at hn
      | some u =>
          have hn' : iterN prev k u = some start := by
            simpa [iterN, hp] using hn
          obtain ⟨t, ht⟩ := iterListN_shape prev k u
          rw [show iterListN prev (k + 1) v = v :: iterListN prev k u from by
            simp [iterListN, hp], ht]
          refine List.chain'_cons.2 ⟨hp, ?_⟩
          · rw [← ht]
            exact ih u hn'

theorem iterListN_tail_head (prev : Nat → Option Nat) (start : Nat)
    (hstart : prev start = none) :
    ∀ (n u : Nat), iterN prev n u = some start →
      (iterListN prev n u).tail.head? = prev u := by
  intro n u hn
  cases n with
  | zero =>
      have : u = start := Option.some.inj hn
      rw [this, hstart]
      rfl
  | succ k =>
      cases hp : prev u with
      | none => simp [iterN, hp] at hn
      | some w =>
          obtain ⟨t, ht⟩ := iterListN_shape prev k w
          rw [show iterListN prev (k + 1) u = u :: iterListN prev k w from by
            simp [iterListN, hp], List.tail_cons, ht]
          rfl

theorem iterListN_keys (g : Graph) (dkm : Nat → Nat → ℚ) (start : Nat)
    (s : DState) (hB : BaseInv g dkm start s) :
    ∀ (n v : Nat), iterN s.prev n v = some start → s.dist v ≠ ⊤ →
      ∀ w ∈ iterListN s.prev n v, w ∈ keys g := by
  intro n
  induction n with
  | zero =>
      intro v _ hvfin w hw
      simp only [iterListN, List.mem_singleton] at hw
      rw [hw]
      exact hB.dist_key v hvfin
  | succ k ih =>
      intro v hn hvfin w hw
      cases hp : s.prev v with
      | none => simp [iterN, hp] at hn
      | some u =>
          have hn' : iterN s.prev k u = some start := by
            simpa [iterN, hp] using hn
          have hufin : s.dist u ≠ ⊤ := by
            obtain ⟨cu, _, hcu, _, _⟩ := hB.chain v u hp
            rw [hcu]
            exact WithTop.coe_ne_top
          rw [show iterListN s.prev (k + 1) v = v :: iterListN s.prev k u from
            by simp [iterListN, hp]] at hw
          rcases List.mem_cons.1 hw with h1 | h2
          · rw [h1]
            exact hB.dist_key v hvfin
          · exact ih u hn' hufin w h2

/-- The chain-consistency invariant pays out: the tentative distance of
any vertex whose predecessor chain reaches the source equals the
accumulated relaxation cost along that chain. -/
theorem chain_codeCost (g : Graph) (dkm : Nat → Nat → ℚ) (start : Nat)
    (s : DState) (hB : BaseInv g dkm start s) :
    ∀ (n v : Nat), iterN s.prev n v = some start →
      ∀ c : ℚ, s.dist v = ((c : ℚ) : WithTop ℚ) →
        c = codeCostRev g dkm (iterListN s.prev n v) := by
  intro n
  induction n with
  | zero =>
      intro v hn c hc
      have hv : v = start := Option.some.inj hn
      rw [hv, hB.start_dist] at hc
      have : c = 0 := WithTop.coe_inj.1 hc.symm
      rw [this]
      rfl
  | succ k ih =>
      intro v hn c hc
      cases hp : s.prev v with
      | none => simp [iterN, hp] at hn
      | some u =>
          have hn' : iterN s.prev k u = some start := by
            simpa [iterN, hp] using hn
          obtain ⟨cu, cv, hcu, hcv, hstep⟩ := hB.chain v u hp
          have hccv : c = cv := by
            rw [hcv] at hc
            exact WithTop.coe_inj.1 hc.symm
          have hcu_code : cu = codeCostRev g dkm (iterListN s.prev k u) :=
            ih u hn' cu hcu
          obtain ⟨t, ht⟩ := iterListN_shape s.prev k u
          have hth : t.head? = s.prev u := by
            have := iterListN_tail_head s.prev start hB.start_prev k u hn'
            rw [ht] at this
            exact this
          rw [show iterListN s.prev (k + 1) v = v :: iterListN s.prev k u from
            by simp [iterListN, hp], ht]
          show c = (if transferGuard g t.head? u v then dkm u v * penaltyQ
            else dkm u v) + codeCostRev g dkm (u :: t)
          rw [hth, ← ht, ← hcu_code, hccv, hstep]
          unfold pyNewDist
          split_ifs <;> ring

/-- The reconstruction loop walks exactly the predecessor chain. -/
theorem reconLoop_chain (ks : List Nat) (prev : Nat → Option Nat)
    (start : Nat) (hstart : prev start = none) :
    ∀ (n : Nat) (v : Nat) (acc : List (Option Nat)) (fuel : Nat),
      iterN prev n v = some start → n + 2 ≤ fuel →
      (∀ w ∈ iterListN prev n v, w ∈ ks) →
      reconLoop ks prev fuel (some v :: acc) =
        none :: ((iterListN prev n v).map some).reverse ++ acc := by
  intro n
  induction n with
  | zero =>
      intro v acc fuel hn hfuel hks
      have hv : v = start := Option.some.inj hn
      obtain ⟨f, rfl⟩ : ∃ f, fuel = f + 1 := ⟨fuel - 1, by omega⟩
      show reconLoop ks prev (f + 1) (some v :: acc) = _
      simp only [reconLoop]
      rw [if_pos (hks v (by simp [iterListN]))]
      rw [hv, hstart]
      obtain ⟨f', rfl⟩ : ∃ f', f = f' + 1 := ⟨f - 1, by omega⟩
      simp [reconLoop, iterListN]
  | succ k ih =>
      intro v acc fuel hn hfuel hks
      cases hp : prev v with
      | none => simp [iterN, hp] at hn
      | some u =>
          have hn' : iterN prev k u = some start := by
            simpa [iterN, hp] using hn
          have hLcons : iterListN prev (k + 1) v = v :: iterListN prev k u :=
            by simp [iterListN, hp]
          obtain ⟨f, rfl⟩ : ∃ f, fuel = f + 1 := ⟨fuel - 1, by omega⟩
          show reconLoop ks prev (f + 1) (some v :: acc) = _
          simp only [reconLoop]
          rw [if_pos (hks v (by rw [hLcons]; exact List.mem_cons_self _ _))]
          rw [hp]
          rw [ih u (some v :: acc) f hn' (by omega)
            (fun w hw => hks w (by rw [hLcons]; exact List.mem_cons_of_mem _ hw))]
          rw [hLcons]
          simp [List.reverse_cons, List.append_assoc]

/-- Master consistency property of `graph_dijkstra` (called with the
ambient `routes` equal to its argument `g`, as the program does): for a
reachable target, the returned path is the reversed predecessor chain of
the target, its endpoints are the source and the target, its steps are
edges, and the recorded cost for the target is exactly the accumulated
relaxation cost along that chain. -/
theorem dijkstra_master (g : Graph) (dkm : Nat → Nat → ℚ)
    (start endv fuel : Nat)
    (hg : GoodGraph g) (hstart : start ∈ keys g) (hd : ∀ a b, 0 ≤ dkm a b)
    (hreach : (graph_dijkstra g dkm g start endv fuel).1 endv ≠ ⊤) :
    ∃ r : List Nat,
      r.head? = some endv ∧ r.getLast? = some start ∧
      (∀ x ∈ r, x ∈ keys g) ∧
      List.Chain' (fun a b => edgeIn g b a) r ∧
      (graph_dijkstra g dkm g start endv fuel).2 = (r.map some).reverse ∧
      (graph_dijkstra g dkm g start endv fuel).1 endv =
        ((codeCostRev g dkm r : ℚ) : WithTop ℚ) := by
  have hInv : Inv g dkm start (dloop g dkm g fuel (initState start)) :=
    inv_dloop g dkm start hg hd fuel (initState start)
      (inv_init g dkm start hstart)
  set s := dloop g dkm g fuel (initState start) with hs
  have hfst : (graph_dijkstra g dkm g start endv fuel).1 = s.dist := rfl
  have hsnd : (graph_dijkstra g dkm g start endv fuel).2 =
      pyReconstruct (keys g) s.prev endv ((keys g).length + 2) := rfl
  have hfin : s.dist endv ≠ ⊤ := by rw [← hfst]; exact hreach
  have hrtg := hInv.reach endv hfin
  have hex : ∃ n, iterN s.prev n endv = some start := reach_iterN hrtg
  set n := Nat.find hex with hn_def
  have hn : iterN s.prev n endv = some start := Nat.find_spec hex
  have hmin : ∀ k, iterN s.prev k endv = some start → n ≤ k :=
    fun k hk => Nat.find_min' hex hk
  set L := iterListN s.prev n endv with hL_def
  have hnodup : L.Nodup := iterListN_nodup s.prev start n endv hn hmin
  have hkeys : ∀ w ∈ L, w ∈ keys g :=
    iterListN_keys g dkm start s hInv.toBaseInv n endv hn hfin
  have hlen : L.length = n + 1 := iterListN_length s.prev start n endv hn
  have hbound : n + 1 ≤ (keys g).length := by
    have hsub : L ⊆ keys g := fun w hw => hkeys w hw
    have := (List.subperm_of_subset hnodup hsub).length_le
    rw [hlen] at this
    exact this
  obtain ⟨c, hc⟩ : ∃ c : ℚ, s.dist endv = ((c : ℚ) : WithTop ℚ) := by
    cases hcx : s.dist endv with
    | top => exact absurd hcx hfin
    | coe c => exact ⟨c, rfl⟩
  refine ⟨L, ?_, ?_, hkeys, ?_, ?_, ?_⟩
  · obtain ⟨t, ht⟩ := iterListN_shape s.prev n endv
    rw [← hL_def] at ht
    rw [ht]
    rfl
  · exact iterListN_getLast s.prev start n endv hn
  · refine List.Chain'.imp ?_ (iterListN_chain_prev s.prev start n endv hn)
    intro a b hab
    exact (hInv.prev_key a b hab).2.2
  · rw [hsnd]
    unfold pyReconstruct
    rw [reconLoop_chain (keys g) s.prev start hInv.start_prev n endv []
      ((keys g).length + 2) hn (by omega) hkeys]
    simp
  · rw [hfst, hc]
    rw [chain_codeCost g dkm start s hInv.toBaseInv n endv hn c hc]

/-! ### The spec's re-summed path costs -/

/-- One step of the spec's re-summing rule along a forward path: the
edge (b, c) is penalized exactly when its line id differs from the
previous edge (a, b)'s line id. -/
def pcStep (g : Graph) (dkm : Nat → Nat → ℚ) (a b c : Nat) : ℚ :=
  if pyLine g a b ≠ pyLine g b c then dkm b c * penaltyQ else dkm b c

def pathCostFrom (g : Graph) (dkm : Nat → Nat → ℚ) :
    Nat → Nat → List Nat → ℚ
  | _, _, [] => 0
  | a, b, c :: rest => pcStep g dkm a b c + pathCostFrom g dkm b c rest

/-- The spec's re-summed cost of a forward path: the edge weight per
edge, multiplied by 1.33 on every edge whose line id differs from the
previous edge's line id, never on the first edge. -/
def pathCost (g : Graph) (dkm : Nat → Nat → ℚ) : List Nat → ℚ
  | a :: b :: rest => dkm a b + pathCostFrom g dkm a b rest
  | _ => 0

/-- Plain sum of the unmodified edge weights along a forward path. -/
def sumDkm (dkm : Nat → Nat → ℚ) : List Nat → ℚ
  | a :: b :: rest => dkm a b + sumDkm dkm (b :: rest)
  | _ => 0

/-- Every stored edge carries the same line id. -/
def singleLine (g : Graph) (L : Nat) : Prop :=
  ∀ a b l, pyLine g a b = some l → l = L

/-- Last two elements of `a :: b :: l`. -/
def lastTwoD : Nat → Nat → List Nat → Nat × Nat
  | a, b, [] => (a, b)
  | _, b, c :: rest => lastTwoD b c rest

/-- Last two elements of any list of length at least two. -/
def last2 : List Nat → Nat × Nat
  | a :: b :: l => lastTwoD a b l
  | _ => (0, 0)

theorem last2_append_pair : ∀ (M : List Nat) (x y : Nat),
    last2 (M ++ [x, y]) = (x, y) := by
  intro M
  induction M with
  | nil => intro x y; rfl
  | cons z M' ih =>
      intro x y
      cases M' with
      | nil => rfl
      | cons w M'' =>
          show lastTwoD z w (M'' ++ [x, y]) = (x, y)
          cases hM : M'' ++ [x, y] with
          | nil => exact absurd hM (by simp)
          | cons d l =>
              show lastTwoD w d l = (x, y)
              have : last2 (w :: d :: l) = (x, y) := by
                rw [← hM]
                exact ih x y
              exact this

theorem pathCostFrom_snoc (g : Graph) (dkm : Nat → Nat → ℚ) :
    ∀ (l : List Nat) (a b c : Nat),
      pathCostFrom g dkm a b (l ++ [c]) =
        pathCostFrom g dkm a b l +
          pcStep g dkm (lastTwoD a b l).1 (lastTwoD a b l).2 c := by
  intro l
  induction l with
  | nil =>
      intro a b c
      show pcStep g dkm a b c + 0 = 0 + pcStep g dkm a b c
      ring
  | cons d rest ih =>
      intro a b c
      show pcStep g dkm a b d + pathCostFrom g dkm b d (rest ++ [c]) = _
      rw [ih b d c]
      show _ = pcStep g dkm a b d + pathCostFrom g dkm b d rest +
        pcStep g dkm (lastTwoD b d rest).1 (lastTwoD b d rest).2 c
      ring

theorem pathCost_snoc (g : Graph) (dkm : Nat → Nat → ℚ)
    (a b : Nat) (l : List Nat) (c : Nat) :
    pathCost g dkm ((a :: b :: l) ++ [c]) =
      pathCost g dkm (a :: b :: l) +
        pcStep g dkm (lastTwoD a b l).1 (lastTwoD a b l).2 c := by
  show dkm a b + pathCostFrom g dkm a b (l ++ [c]) = _
  rw [pathCostFrom_snoc]
  show _ = dkm a b + pathCostFrom g dkm a b l +
    pcStep g dkm (lastTwoD a b l).1 (lastTwoD a b l).2 c
  ring

/-- On chains whose vertices are all nonzero, the spec's forward re-sum
agrees with the engine's chain cost (the only difference between the two
rules is Python's truthiness test on the predecessor id). -/
theorem pathCost_reverse_eq (g : Graph) (dkm : Nat → Nat → ℚ) :
    ∀ (r : List Nat), (∀ x ∈ r, x ≠ 0) →
      pathCost g dkm r.reverse = codeCostRev g dkm r := by
  intro r
  induction r with
  | nil => intro _; rfl
  | cons v rest ih =>
      intro h0
      cases rest with
      | nil => rfl
      | cons u rest2 =>
          have hihyp := ih (fun x hx => h0 x (List.mem_cons_of_mem _ hx))
          cases rest2 with
          | nil =>
              show pathCost g dkm ([v, u].reverse) = _
              show pathCost g dkm [u, v] = _
              show dkm u v + pathCostFrom g dkm u v [] = _
              show dkm u v + 0 =
                (if transferGuard g ([] : List Nat).head? u v then
                  dkm u v * penaltyQ else dkm u v) + codeCostRev g dkm [u]
              show dkm u v + 0 =
                (if transferGuard g none u v then dkm u v * penaltyQ
                 else dkm u v) + 0
              rw [show transferGuard g none u v = false from rfl]
              simp
          | cons w rest3 =>
              have hw0 : w ≠ 0 := h0 w (by simp)
              have hrev : (v :: u :: w :: rest3).reverse =
                  ((u :: w :: rest3).reverse) ++ [v] := by simp
              have hM : (u :: w :: rest3).reverse =
                  rest3.reverse ++ [w, u] := by simp
              obtain ⟨a, M1, ha⟩ : ∃ a M1, (u :: w :: rest3).reverse =
                  a :: M1 := by
                cases hh : (u :: w :: rest3).reverse with
                | nil => exact absurd hh (by simp)
                | cons a M1 => exact ⟨a, M1, rfl⟩
              obtain ⟨b, l, hb⟩ : ∃ b l, M1 = b :: l := by
                cases hh : M1 with
                | nil =>
                    exfalso
                    have := congrArg List.length ha
                    rw [hh] at this
                    simp at this
                | cons b l => exact ⟨b, l, rfl⟩
              have hlt : lastTwoD a b l = (w, u) := by
                have h1 : last2 ((u :: w :: rest3).reverse) = (w, u) := by
                  rw [hM]
                  exact last2_append_pair _ w u
                rw [ha, hb] at h1
                exact h1
              rw [hrev, ha, hb, pathCost_snoc, hlt, ← hb, ← ha, hihyp]
              show codeCostRev g dkm (u :: w :: rest3) + pcStep g dkm w u v =
                (if transferGuard g (w :: rest3).head? u v then
                  dkm u v * penaltyQ else dkm u v) +
                codeCostRev g dkm (u :: w :: rest3)
              have hguard : transferGuard g ((w :: rest3).head?) u v =
                  decide (pyLine g w u ≠ pyLine g u v) := by
                show transferGuard g (some w) u v = _
                simp [transferGuard, hw0]
              rw [hguard]
              unfold pcStep
              by_cases hne : pyLine g w u ≠ pyLine g u v
              · rw [if_pos hne, if_pos (by simpa using hne)]
                ring
              · rw [if_neg hne, if_neg (by simpa using hne)]
                ring

theorem sumDkm_snoc (dkm : Nat → Nat → ℚ) :
    ∀ (l : List Nat) (a c : Nat),
      sumDkm dkm ((a :: l) ++ [c]) =
        sumDkm dkm (a :: l) + dkm (l.getLastD a) c := by
  intro l
  induction l with
  | nil =>
      intro a c
      show dkm a c + sumDkm dkm [c] = sumDkm dkm [a] + dkm a c
      show dkm a c + 0 = 0 + dkm a c
      ring
  | cons b rest ih =>
      intro a c
      show dkm a b + sumDkm dkm ((b :: rest) ++ [c]) = _
      rw [ih b c]
      show _ = dkm a b + sumDkm dkm (b :: rest) +
        dkm ((b :: rest).getLastD a) c
      rw [List.getLastD_cons]
      ring

/-- On a single-line graph, the engine's chain cost over a chain whose
steps are edges is the plain sum of the edge weights of the forward
path: the penalty guard can never fire. -/
theorem sumDkm_reverse_eq (g : Graph) (dkm : Nat → Nat → ℚ) (L : Nat)
    (hline : singleLine g L) :
    ∀ (r : List Nat), List.Chain' (fun a b => edgeIn g b a) r →
      sumDkm dkm r.reverse = codeCostRev g dkm r := by
  intro r
  induction r with
  | nil => intro _; rfl
  | cons v rest ih =>
      intro hchain
      cases rest with
      | nil => rfl
      | cons u rest2 =>
          have hchain2 : List.Chain' (fun a b => edgeIn g b a) (u :: rest2) :=
            (List.chain'_cons.1 hchain).2
          have hedge_uv : edgeIn g u v := (List.chain'_cons.1 hchain).1
          have hguard : transferGuard g (rest2.head?) u v = false := by
            cases rest2 with
            | nil => rfl
            | cons w rest3 =>
                have hedge_wu : edgeIn g w u :=
                  (List.chain'_cons.1 hchain2).1
                obtain ⟨l1, hl1⟩ := (edgeIn_iff g w u).1 hedge_wu
                obtain ⟨l2, hl2⟩ := (edgeIn_iff g u v).1 hedge_uv
                have e1 : l1 = L := hline w u l1 hl1
                have e2 : l2 = L := hline u v l2 hl2
                show transferGuard g (some w) u v = false
                simp [transferGuard, hl1, hl2, e1, e2]
          obtain ⟨a, M1, ha⟩ : ∃ a M1, (u :: rest2).reverse = a :: M1 := by
            cases hh : (u :: rest2).reverse with
            | nil => exact absurd hh (by simp)
            | cons a M1 => exact ⟨a, M1, rfl⟩
          have hlast : M1.getLastD a = u := by
            have h1 : (u :: rest2).reverse.getLast? = some u := by
              rw [List.getLast?_reverse]
              rfl
            rw [ha] at h1
            have h2 : (a :: M1).getLastD 0 = u := by
              rw [List.getLastD_eq_getLast?, h1]
              rfl
            rw [List.getLastD_cons] at h2
            exact h2
          rw [show (v :: u :: rest2).reverse = (u :: rest2).reverse ++ [v]
            from by simp, ha, sumDkm_snoc, hlast, ← ha,
            ih hchain2]
          show codeCostRev g dkm (u :: rest2) + dkm u v =
            (if transferGuard g rest2.head? u v then dkm u v * penaltyQ
             else dkm u v) + codeCostRev g dkm (u :: rest2)
          rw [hguard]
          show codeCostRev g dkm (u :: rest2) + dkm u v =
            (if False then dkm u v * penaltyQ else dkm u v) +
              codeCostRev g dkm (u :: rest2)
          rw [if_neg (fun h => h)]
          ring

/-! ### Claims C3 and C7 -/

/-- Claim C3, counterexample: on the graph with stations 0, 1, 2 (edges
0-1 on line 1 and 1-2 on line 2, unit edge weights), the run from source
0 to target 2 records cost 2 and returns the path [0, 1, 2]; re-summing
that path with the spec's transfer rule (penalty on an edge whose line
differs from the previous edge's line) gives 1 + 1·1.33 = 2.33 ≠ 2.  The
relaxation out of node 1 skipped the penalty because its recorded
predecessor is the falsy station id 0. -/
theorem C3_counterexample :
    (graph_dijkstra exZero exOne exZero 0 2 10).1 2 = ((2 : ℚ) : WithTop ℚ) ∧
    (graph_dijkstra exZero exOne exZero 0 2 10).2 = [some 0, some 1, some 2] ∧
    pathCost exZero exOne [0, 1, 2] = 233 / 100 ∧
    ((2 : ℚ) : WithTop ℚ) ≠ (((233 : ℚ) / 100 : ℚ) : WithTop ℚ) := by
  with_unfolding_all decide

/-- Claim C3 (amended): for every well-formed graph *whose station ids
are all nonzero*, every nonnegative edge-weight table, and every (start,
end) pair with end reachable from start, the cost `graph_dijkstra`
records for end equals the cost obtained by re-summing weight-plus-
penalty along the reconstructed path it returns, applying the spec's
transfer rule (penalty on an edge whose line id differs from the
previous edge's line id).  The run is taken at any fuel that drains the
queue (the Python loop runs to completion), with the ambient
module-scoped `routes` equal to the argument graph, as in the program.
(The original claim, quantified over all graphs, fails on graphs
containing station id 0.) -/
theorem C3_amended_cost_along_path (g : Graph) (dkm : Nat → Nat → ℚ)
    (start endv fuel : Nat)
    (hg : GoodGraph g) (hz : 0 ∉ keys g) (hstart : start ∈ keys g)
    (hd : ∀ a b, 0 ≤ dkm a b)
    (hdrain : (dloop g dkm g fuel (initState start)).pq = [])
    (hreach : (graph_dijkstra g dkm g start endv fuel).1 endv ≠ ⊤) :
    ∃ p : List Nat,
      (graph_dijkstra g dkm g start endv fuel).2 = p.map some ∧
      p.head? = some start ∧ p.getLast? = some endv ∧
      (graph_dijkstra g dkm g start endv fuel).1 endv =
        ((pathCost g dkm p : ℚ) : WithTop ℚ) := by
  obtain ⟨r, hhead, hlast, hkeys, hedges, hpath, hcost⟩ :=
    dijkstra_master g dkm start endv fuel hg hstart hd hreach
  refine ⟨r.reverse, ?_, ?_, ?_, ?_⟩
  · rw [hpath, List.map_reverse]
  · rw [List.head?_reverse]
    exact hlast
  · rw [List.getLast?_reverse]
    exact hhead
  · rw [hcost]
    refine WithTop.coe_inj.2 ?_
    exact (pathCost_reverse_eq g dkm r
      (fun x hx h0 => hz (h0 ▸ hkeys x hx))).symm

/-- Witness for the amended C3 on the spec's concrete transfer scenario
(stations 1, 2, 3; edges 1-2 on line 1 and 2-3 on line 2; unit
weights): the recorded cost 2.33 is the re-sum along the returned path
[1, 2, 3]. -/
theorem C3_amended_cost_along_path_witness :
    ∃ p : List Nat,
      (graph_dijkstra exTransfer exOne exTransfer 1 3 10).2 = p.map some ∧
      p.head? = some 1 ∧ p.getLast? = some 3 ∧
      (graph_dijkstra exTransfer exOne exTransfer 1 3 10).1 3 =
        ((pathCost exTransfer exOne p : ℚ) : WithTop ℚ) :=
  C3_amended_cost_along_path exTransfer exOne 1 3 10
    (by refine ⟨?_, ?_, ?_⟩ <;> decide) (by decide) (by decide)
    (fun a b => by norm_num [exOne]) (by with_unfolding_all decide)
    (by with_unfolding_all decide)

/-- Claim C7: on a single-line graph (every stored edge carries the same
line id), (a) the penalty guard of the relaxation is false for every
pair of adjacent edges, so no relaxation ever applies the 1.33 factor,
and (b) the total cost recorded for any reachable vertex equals the sum
of the unmodified edge weights along its reconstructed path. -/
theorem C7_single_line_no_penalty (g : Graph) (dkm : Nat → Nat → ℚ)
    (start endv fuel L : Nat)
    (hg : GoodGraph g) (hstart : start ∈ keys g) (hd : ∀ a b, 0 ≤ dkm a b)
    (hline : singleLine g L)
    (hdrain : (dloop g dkm g fuel (initState start)).pq = [])
    (hreach : (graph_dijkstra g dkm g start endv fuel).1 endv ≠ ⊤) :
    (∀ w u nb, edgeIn g w u → edgeIn g u nb →
      transferGuard g (some w) u nb = false) ∧
    ∃ p : List Nat,
      (graph_dijkstra g dkm g start endv fuel).2 = p.map some ∧
      p.head? = some start ∧ p.getLast? = some endv ∧
      (graph_dijkstra g dkm g start endv fuel).1 endv =
        ((sumDkm dkm p : ℚ) : WithTop ℚ) := by
  constructor
  · intro w u nb h1 h2
    obtain ⟨l1, hl1⟩ := (edgeIn_iff g w u).1 h1
    obtain ⟨l2, hl2⟩ := (edgeIn_iff g u nb).1 h2
    have e1 := hline w u l1 hl1
    have e2 := hline u nb l2 hl2
    simp [transferGuard, hl1, hl2, e1, e2]
  · obtain ⟨r, hhead, hlast, hkeys, hedges, hpath, hcost⟩ :=
      dijkstra_master g dkm start endv fuel hg hstart hd hreach
    refine ⟨r.reverse, ?_, ?_, ?_, ?_⟩
    · rw [hpath, List.map_reverse]
    · rw [List.head?_reverse]
      exact hlast
    · rw [List.getLast?_reverse]
      exact hhead
    · rw [hcost]
      refine WithTop.coe_inj.2 ?_
      exact (sumDkm_reverse_eq g dkm L hline r hedges).symm

/-- A graph all of whose stored entries carry line id `L` is
single-line. -/
theorem singleLine_of_entries (g : Graph) (L : Nat)
    (h : ∀ p ∈ g, ∀ q ∈ p.2, q.2 = L) : singleLine g L := by
  intro a b l hl
  unfold pyLine at hl
  cases hA : alookup g a with
  | none => rw [hA] at hl; exact Option.noConfusion hl
  | some adj =>
      rw [hA, Option.some_bind] at hl
      exact h (a, adj) (alookup_mem hA) (b, l) (alookup_mem hl)

/-- Witness for C7 on the concrete single-line graph (stations 1, 2, 3
in a line, both edges on line 1, unit weights): no guard fires and the
recorded cost 2 is the plain sum along [1, 2, 3]. -/
theorem C7_single_line_no_penalty_witness :
    (∀ w u nb, edgeIn exSingle w u → edgeIn exSingle u nb →
      transferGuard exSingle (some w) u nb = false) ∧
    ∃ p : List Nat,
      (graph_dijkstra exSingle exOne exSingle 1 3 10).2 = p.map some ∧
      p.head? = some 1 ∧ p.getLast? = some 3 ∧
      (graph_dijkstra exSingle exOne exSingle 1 3 10).1 3 =
        ((sumDkm exOne p : ℚ) : WithTop ℚ) := by
  have hline : singleLine exSingle 1 :=
    singleLine_of_entries exSingle 1 (by decide)
  exact C7_single_line_no_penalty exSingle exOne 1 3 10 1
    (by refine ⟨?_, ?_, ?_⟩ <;> decide) (by decide)
    (fun a b => by norm_num [exOne]) hline
    (by with_unfolding_all decide) (by with_unfolding_all decide)

end TubePlanner
